import Mathlib

/-!
# Verification of the emailmak crawl-and-enrich pipeline

A shallow embedding of the pure core of the `emailmak` repository
(`src/crawlers/email_extractor.py`, `src/crawlers/base.py`,
`src/crawlers/saramin.py`, `src/crawlers/jobkorea.py`, `src/server.py`)
together with proofs about its specified properties.

Strings manipulated by the extractor are modelled as `List Char`; network
fetches, `urljoin`/`urlparse` and the HTML parser are external collaborators
and appear as explicit function parameters (oracles).
-/

namespace Emailmak

/-! ## Generic list helpers (Python substring test, Python `set` as
first-occurrence deduplication) -/

/-- Python `needle in hay` substring containment on character lists. -/
def listContains (hay needle : List Char) : Bool :=
  match hay with
  | [] => needle == []
  | _ :: t => needle.isPrefixOf hay || listContains t needle

/-- First-occurrence deduplication with an accumulator of already seen
elements; `dedupKeep` below models a Python `set` built by repeated
insertion (membership is what matters; iteration order is modelled as
first-seen order). -/
def dedupAux (seen : List (List Char)) : List (List Char) → List (List Char)
  | [] => []
  | x :: xs =>
    if x ∈ seen then dedupAux seen xs
    else x :: dedupAux (x :: seen) xs

def dedupKeep (l : List (List Char)) : List (List Char) := dedupAux [] l

theorem mem_dedupAux {seen : List (List Char)} {l : List (List Char)}
    {x : List Char} (h : x ∈ dedupAux seen l) : x ∈ l := by
  induction l generalizing seen with
  | nil => simp [dedupAux] at h
  | cons a t ih =>
    simp only [dedupAux] at h
    split at h
    · exact List.mem_cons_of_mem _ (ih h)
    · rcases List.mem_cons.mp h with h1 | h2
      · exact h1 ▸ List.mem_cons_self _ _
      · exact List.mem_cons_of_mem _ (ih h2)

theorem dedupAux_not_mem_seen {seen : List (List Char)} {l : List (List Char)}
    {x : List Char} (h : x ∈ dedupAux seen l) : x ∉ seen := by
  induction l generalizing seen with
  | nil => simp [dedupAux] at h
  | cons a t ih =>
    simp only [dedupAux] at h
    split at h
    · exact ih h
    · rcases List.mem_cons.mp h with h1 | h2
      · subst h1; assumption
      · intro hx
        exact ih h2 (List.mem_cons_of_mem _ hx)

theorem dedupAux_nodup (seen : List (List Char)) (l : List (List Char)) :
    (dedupAux seen l).Nodup := by
  induction l generalizing seen with
  | nil => simp [dedupAux]
  | cons a t ih =>
    simp only [dedupAux]
    split
    · exact ih seen
    · refine List.nodup_cons.mpr ⟨?_, ih (a :: seen)⟩
      intro hmem
      exact dedupAux_not_mem_seen hmem (List.mem_cons_self _ _)

theorem dedupKeep_nodup (l : List (List Char)) : (dedupKeep l).Nodup :=
  dedupAux_nodup [] l

theorem dedupAux_of_nodup {l : List (List Char)} (seen : List (List Char))
    (hnd : l.Nodup) (hdis : ∀ x ∈ l, x ∉ seen) : dedupAux seen l = l := by
  induction l generalizing seen with
  | nil => rfl
  | cons a t ih =>
    have ha : a ∉ seen := hdis a (List.mem_cons_self _ _)
    simp only [dedupAux, if_neg ha]
    congr 1
    refine ih (a :: seen) (List.nodup_cons.mp hnd).2 ?_
    intro x hx
    rcases List.nodup_cons.mp hnd with ⟨hna, _⟩
    intro hmem
    rcases List.mem_cons.mp hmem with h1 | h2
    · exact hna (h1 ▸ hx)
    · exact hdis x (List.mem_cons_of_mem _ hx) h2

theorem dedupKeep_of_nodup {l : List (List Char)} (hnd : l.Nodup) :
    dedupKeep l = l :=
  dedupAux_of_nodup [] hnd (by simp)

theorem dedupAux_congr_seen {s1 s2 : List (List Char)} (l : List (List Char))
    (h : ∀ x, x ∈ s1 ↔ x ∈ s2) : dedupAux s1 l = dedupAux s2 l := by
  induction l generalizing s1 s2 with
  | nil => rfl
  | cons a t ih =>
    simp only [dedupAux]
    by_cases ha : a ∈ s1
    · rw [if_pos ha, if_pos ((h a).mp ha)]
      exact ih h
    · rw [if_neg ha, if_neg (fun hx => ha ((h a).mpr hx))]
      congr 1
      refine ih ?_
      intro x
      simp only [List.mem_cons]
      exact or_congr Iff.rfl (h x)

theorem mem_dedupAux_of_mem {l : List (List Char)} {x : List Char}
    (seen : List (List Char)) (hx : x ∈ l) (hseen : x ∉ seen) :
    x ∈ dedupAux seen l := by
  induction l generalizing seen with
  | nil => simp at hx
  | cons a t ih =>
    simp only [dedupAux]
    by_cases ha : a ∈ seen
    · rw [if_pos ha]
      rcases List.mem_cons.mp hx with h1 | h2
      · exact absurd (h1 ▸ ha) hseen
      · exact ih seen h2 hseen
    · rw [if_neg ha]
      by_cases hxa : x = a
      · subst hxa; exact List.mem_cons_self _ _
      · rcases List.mem_cons.mp hx with h1 | h2
        · exact absurd h1 hxa
        · refine List.mem_cons_of_mem _ (ih (a :: seen) h2 ?_)
          simp only [List.mem_cons, not_or]
          exact ⟨hxa, hseen⟩

theorem mem_dedupKeep_iff (l : List (List Char)) (x : List Char) :
    x ∈ dedupKeep l ↔ x ∈ l := by
  constructor
  · exact mem_dedupAux
  · intro hx
    exact mem_dedupAux_of_mem [] hx (by simp)

/-! ## EMAIL_PATTERN: `[a-zA-Z0-9._%+-]+@[a-zA-Z0-9.-]+\.[a-zA-Z]{2,}`

A direct model of Python `re.findall` specialised to this pattern
(`EmailExtractor.EMAIL_PATTERN` and `BaseCrawler.EMAIL_PATTERN`): the scanner
tries a match at every position left to right, advancing past a successful
match; greedy sub-matches with backtracking reduce, for this pattern, to
maximal character-class runs plus choosing the last viable dot of the
domain run. -/

theorem takeWhile_length_le (p : α → Bool) (l : List α) :
    (l.takeWhile p).length ≤ l.length := by
  induction l with
  | nil => simp
  | cons a t ih =>
    rw [List.takeWhile_cons]
    split
    · simpa using ih
    · simp

/-- Character class of the local part `[a-zA-Z0-9._%+-]`. -/
def isLocalChar (c : Char) : Bool :=
  c.isAlpha || c.isDigit || c == '.' || c == '_' || c == '%' || c == '+' || c == '-'

/-- Character class of the domain `[a-zA-Z0-9.-]`. -/
def isDomainChar (c : Char) : Bool :=
  c.isAlpha || c.isDigit || c == '.' || c == '-'

/-- Length of the maximal leading `[a-zA-Z]` run (the greedy `{2,}` TLD
match). -/
def letterRunLen (l : List Char) : Nat := (l.takeWhile Char.isAlpha).length

/-- Given the maximal domain-class run after the `@`, the length of the
portion matched by `[a-zA-Z0-9.-]+\.[a-zA-Z]{2,}`: the backtracking engine
picks the largest `p ≥ 1` such that position `p` holds a dot followed by at
least two letters, and the TLD match is then greedy. -/
def matchDomain (dom : List Char) : Option Nat :=
  match (List.range dom.length).reverse.find?
      (fun p => decide (1 ≤ p) && (dom.getD p ' ' == '.')
        && decide (2 ≤ letterRunLen (dom.drop (p + 1)))) with
  | some p => some (p + 1 + letterRunLen (dom.drop (p + 1)))
  | none => none

/-- One attempt of the whole pattern at the head of `s`; on success returns
the matched substring and the rest of the input after the match. -/
def tryMatch (s : List Char) : Option (List Char × List Char) :=
  match s.dropWhile isLocalChar with
  | '@' :: r2 =>
    if s.takeWhile isLocalChar = [] then none
    else
      match matchDomain (r2.takeWhile isDomainChar) with
      | some k =>
        some (s.takeWhile isLocalChar ++ '@' :: (r2.takeWhile isDomainChar).take k,
          (r2.takeWhile isDomainChar).drop k ++ r2.dropWhile isDomainChar)
      | none => none
  | _ => none

/-- Fuelled scanner: at each position try a match; on failure advance one
character, on success continue after the match (`re.findall`).  `findAll`
below instantiates the fuel with the input length, which suffices. -/
def findAllF : Nat → List Char → List (List Char)
  | 0, _ => []
  | fuel + 1, s =>
    match tryMatch s with
    | some (m, r) => m :: findAllF fuel r
    | none =>
      match s with
      | [] => []
      | _ :: t => findAllF fuel t

/-- `re.findall(EMAIL_PATTERN, s)`. -/
def findAll (s : List Char) : List (List Char) := findAllF s.length s

theorem matchDomain_le {dom : List Char} {k : Nat}
    (h : matchDomain dom = some k) : k ≤ dom.length := by
  unfold matchDomain at h
  split at h
  · rename_i p hp
    have hmem : p ∈ (List.range dom.length).reverse := List.mem_of_find?_eq_some hp
    have hplt : p < dom.length := by
      rw [List.mem_reverse, List.mem_range] at hmem
      exact hmem
    have hlen : letterRunLen (dom.drop (p + 1)) ≤ dom.length - (p + 1) := by
      have := takeWhile_length_le Char.isAlpha (dom.drop (p + 1))
      simpa [letterRunLen] using this
    have hkk : p + 1 + letterRunLen (dom.drop (p + 1)) = k := by
      injection h
    omega
  · exact absurd h (by simp)

theorem tryMatch_rest_length {s m r : List Char}
    (h : tryMatch s = some (m, r)) : r.length < s.length ∧ m ≠ [] := by
  unfold tryMatch at h
  split at h
  · rename_i r2 hdrop
    split at h
    · exact absurd h (by simp)
    · rename_i hne
      split at h
      · rename_i k hk
        injection h with h'
        injection h' with h1 h2
        constructor
        · have hs : (s.takeWhile isLocalChar).length + ('@' :: r2).length = s.length := by
            conv_rhs => rw [← List.takeWhile_append_dropWhile (p := isLocalChar) (l := s)]
            rw [hdrop, List.length_append]
          have hr2' : (r2.takeWhile isDomainChar).length + (r2.dropWhile isDomainChar).length
              = r2.length := by
            conv_rhs => rw [← List.takeWhile_append_dropWhile (p := isDomainChar) (l := r2)]
            rw [List.length_append]
          have hloc : 0 < (s.takeWhile isLocalChar).length := by
            cases hl : s.takeWhile isLocalChar with
            | nil => exact absurd hl hne
            | cons a t => simp
          subst h2
          simp only [List.length_append, List.length_cons, List.length_drop] at *
          omega
        · subst h1
          simp only [ne_eq, List.append_eq_nil, List.cons_ne_nil, and_false, not_false_iff]
      · exact absurd h (by simp)
  · exact absurd h (by simp)

theorem findAllF_fuel {f1 f2 : Nat} {s : List Char}
    (h1 : s.length ≤ f1) (h2 : s.length ≤ f2) :
    findAllF f1 s = findAllF f2 s := by
  induction f1 generalizing f2 s with
  | zero =>
    have : s = [] := List.length_eq_zero.mp (Nat.le_zero.mp h1)
    subst this
    cases f2 with
    | zero => rfl
    | succ g => simp [findAllF, tryMatch]
  | succ g ih =>
    cases s with
    | nil =>
      cases f2 with
      | zero => rfl
      | succ g2 => simp [findAllF, tryMatch]
    | cons a t =>
      cases f2 with
      | zero => simp at h2
      | succ g2 =>
        simp only [findAllF]
        cases hm : tryMatch (a :: t) with
        | some p =>
          obtain ⟨m, r⟩ := p
          have hr := (tryMatch_rest_length hm).1
          simp only [List.length_cons] at h1 h2 hr
          exact congrArg (m :: ·) (ih (by omega) (by omega))
        | none =>
          simp only [List.length_cons] at h1 h2
          exact ih (by omega) (by omega)

theorem findAll_eq_match {s m r : List Char} (h : tryMatch s = some (m, r)) :
    findAll s = m :: findAll r := by
  have hr := (tryMatch_rest_length h).1
  unfold findAll
  cases s with
  | nil =>
    rw [show tryMatch [] = none from rfl] at h
    exact absurd h (by simp)
  | cons a t =>
    simp only [List.length_cons] at hr
    simp only [List.length_cons, findAllF, h]
    exact congrArg (m :: ·) (findAllF_fuel (by omega) (by omega))

theorem findAll_eq_skip {a : Char} {t : List Char}
    (h : tryMatch (a :: t) = none) : findAll (a :: t) = findAll t := by
  unfold findAll
  simp only [List.length_cons, findAllF, h]

theorem findAll_nil : findAll [] = [] := rfl

/-! ### Structure of a successful match, and re-scanning a match -/

theorem find?_reverse_range_eq_some {q : Nat → Bool} {n p : Nat}
    (hq : q p = true) :
    p < n → (∀ j, p < j → j < n → q j = false) →
    (List.range n).reverse.find? q = some p := by
  induction n with
  | zero => intro hp _; omega
  | succ g ih =>
    intro hp habove
    have hrev : (List.range (g + 1)).reverse = g :: (List.range g).reverse := by
      rw [List.range_succ, List.reverse_append]
      rfl
    rw [hrev]
    by_cases hpg : p = g
    · subst hpg
      simp [List.find?, hq]
    · have hqg : q g = false := habove g (by omega) (by omega)
      simp only [List.find?, hqg]
      exact ih (by omega) (fun j h1 h2 => habove j h1 (by omega))

theorem matchDomain_spec {dom : List Char} {k : Nat}
    (h : matchDomain dom = some k) :
    ∃ p, p < dom.length ∧ 1 ≤ p ∧ dom.getD p ' ' = '.' ∧
      2 ≤ letterRunLen (dom.drop (p + 1)) ∧
      k = p + 1 + letterRunLen (dom.drop (p + 1)) := by
  unfold matchDomain at h
  split at h
  · rename_i p hp
    have hmem : p ∈ (List.range dom.length).reverse := List.mem_of_find?_eq_some hp
    have hplt : p < dom.length := by
      rw [List.mem_reverse, List.mem_range] at hmem
      exact hmem
    have hq := List.find?_some hp
    simp only [Bool.and_eq_true, decide_eq_true_eq, beq_iff_eq] at hq
    refine ⟨p, hplt, hq.1.1, hq.1.2, hq.2, ?_⟩
    injection h with h'
    omega
  · exact absurd h (by simp)

/-- A character of the greedy TLD run is a letter. -/
theorem letterRun_alpha : ∀ {l : List Char} {i : Nat}, i < letterRunLen l →
    Char.isAlpha (l.getD i ' ') = true := by
  intro l
  induction l with
  | nil =>
    intro i h
    simp [letterRunLen] at h
  | cons c t ih =>
    intro i h
    unfold letterRunLen at h
    rw [List.takeWhile_cons] at h
    by_cases hc : Char.isAlpha c = true
    · rw [if_pos hc] at h
      cases i with
      | zero => exact hc
      | succ j =>
        rw [List.getD_cons_succ]
        refine ih ?_
        unfold letterRunLen
        simp only [List.length_cons] at h
        omega
    · rw [if_neg hc] at h
      simp at h

theorem matchDomain_take {dom : List Char} {k : Nat}
    (h : matchDomain dom = some k) : matchDomain (dom.take k) = some k := by
  obtain ⟨p, hplt, hp1, hdot, ht2, hk⟩ := matchDomain_spec h
  have hkle : k ≤ dom.length := matchDomain_le h
  set t := letterRunLen (dom.drop (p + 1)) with htdef
  have hlen : (dom.take k).length = k := by
    rw [List.length_take]
    omega
  have hdrop_take : (dom.take k).drop (p + 1) = (dom.drop (p + 1)).take t := by
    rw [List.drop_take]
    congr 1
    omega
  have hrun : letterRunLen ((dom.take k).drop (p + 1)) = t := by
    rw [hdrop_take]
    unfold letterRunLen
    rw [← List.take_takeWhile]
    rw [List.length_take]
    unfold letterRunLen at htdef
    omega
  have hgetD : ∀ j, j < k → (dom.take k).getD j ' ' = dom.getD j ' ' := by
    intro j hj
    rw [List.getD_eq_getElem _ _ (by omega), List.getD_eq_getElem _ _ (by omega)]
    exact List.getElem_take dom
  unfold matchDomain
  rw [hlen]
  rw [find?_reverse_range_eq_some (p := p) ?_ (by omega) ?_]
  · show some (p + 1 + letterRunLen ((dom.take k).drop (p + 1))) = some k
    rw [hrun]
    exact congrArg some (by omega)
  · simp only [Bool.and_eq_true, decide_eq_true_eq, beq_iff_eq]
    refine ⟨⟨hp1, ?_⟩, ?_⟩
    · rw [hgetD p (by omega)]
      exact hdot
    · rw [hrun]
      omega
  · intro j hpj hjk
    have hj : j - (p + 1) < t := by omega
    have halpha := letterRun_alpha (l := dom.drop (p + 1)) hj
    have hgd : (dom.drop (p + 1)).getD (j - (p + 1)) ' ' = dom.getD j ' ' := by
      rw [List.getD_eq_getElem _ _ (by rw [List.length_drop]; omega),
        List.getD_eq_getElem _ _ (by omega)]
      rw [List.getElem_drop]
      congr 1
      omega
    rw [hgd] at halpha
    have hne : dom.getD j ' ' ≠ '.' := by
      intro hc
      rw [hc] at halpha
      exact absurd halpha (by decide)
    have hb : ((dom.take k).getD j ' ' == '.') = false := by
      rw [hgetD j hjk]
      exact beq_eq_false_iff_ne.mpr hne
    show (decide (1 ≤ j) && ((dom.take k).getD j ' ' == '.')
      && decide (2 ≤ letterRunLen ((dom.take k).drop (j + 1)))) = false
    rw [hb]
    simp

/-- The shape every string returned by the scanner has: a nonempty local
part, the `@`, and a domain that the domain matcher consumes entirely. -/
def IsMatchStr (m : List Char) : Prop :=
  ∃ loc d, m = loc ++ '@' :: d ∧ loc ≠ [] ∧
    (∀ c ∈ loc, isLocalChar c = true) ∧
    (∀ c ∈ d, isDomainChar c = true) ∧
    matchDomain d = some d.length

theorem tryMatch_isMatchStr {s m r : List Char}
    (h : tryMatch s = some (m, r)) : IsMatchStr m := by
  unfold tryMatch at h
  split at h
  · rename_i r2 hdrop
    split at h
    · exact absurd h (by simp)
    · rename_i hne
      split at h
      · rename_i k hk
        injection h with h'
        injection h' with h1 h2
        refine ⟨s.takeWhile isLocalChar, (r2.takeWhile isDomainChar).take k,
          h1.symm, hne, ?_, ?_, ?_⟩
        · intro c hc
          exact List.mem_takeWhile_imp hc
        · intro c hc
          exact List.mem_takeWhile_imp ((List.take_subset _ _) hc)
        · have hkle := matchDomain_le hk
          have : ((r2.takeWhile isDomainChar).take k).length = k := by
            rw [List.length_take]
            omega
          rw [this]
          exact matchDomain_take hk
      · exact absurd h (by simp)
  · exact absurd h (by simp)

theorem takeWhile_append_all {p : α → Bool} (xs ys : List α)
    (hxs : ∀ c ∈ xs, p c = true)
    (hys : ∀ c, ys.head? = some c → p c = false) :
    (xs ++ ys).takeWhile p = xs ∧ (xs ++ ys).dropWhile p = ys := by
  induction xs with
  | nil =>
    cases ys with
    | nil => simp [List.takeWhile, List.dropWhile]
    | cons y t =>
      have hy : p y = false := hys y rfl
      simp [List.takeWhile, List.dropWhile, hy]
  | cons x xt ih =>
    have hx : p x = true := hxs x (List.mem_cons_self _ _)
    have ht := ih (fun c hc => hxs c (List.mem_cons_of_mem _ hc))
    constructor
    · rw [List.cons_append, List.takeWhile_cons_of_pos hx]
      exact congrArg (x :: ·) ht.1
    · rw [List.cons_append, List.dropWhile_cons_of_pos hx]
      exact ht.2

/-- Re-scanning a match at the head of a string whose continuation does not
start with a domain character reproduces exactly that match. -/
theorem tryMatch_self_append {m rest : List Char} (hm : IsMatchStr m)
    (hrest : ∀ c, rest.head? = some c → isDomainChar c = false) :
    tryMatch (m ++ rest) = some (m, rest) := by
  obtain ⟨loc, d, hmeq, hlocne, hloc, hd, hmd⟩ := hm
  subst hmeq
  have hlocrest : ∀ c, ('@' :: (d ++ rest)).head? = some c → isLocalChar c = false := by
    intro c hc
    simp only [List.head?_cons, Option.some.injEq] at hc
    subst hc
    decide
  have h1 := takeWhile_append_all (p := isLocalChar) loc ('@' :: (d ++ rest))
    hloc hlocrest
  have h2 := takeWhile_append_all (p := isDomainChar) d rest hd hrest
  have hassoc : (loc ++ '@' :: d) ++ rest = loc ++ '@' :: (d ++ rest) := by
    simp
  have hT : ((loc ++ '@' :: d) ++ rest).takeWhile isLocalChar = loc := by
    rw [hassoc]
    exact h1.1
  have hDrop : ((loc ++ '@' :: d) ++ rest).dropWhile isLocalChar = '@' :: (d ++ rest) := by
    rw [hassoc]
    exact h1.2
  unfold tryMatch
  rw [hDrop]
  show (if ((loc ++ '@' :: d) ++ rest).takeWhile isLocalChar = [] then none
    else
      match matchDomain ((d ++ rest).takeWhile isDomainChar) with
      | some k =>
        some (((loc ++ '@' :: d) ++ rest).takeWhile isLocalChar
            ++ '@' :: ((d ++ rest).takeWhile isDomainChar).take k,
          ((d ++ rest).takeWhile isDomainChar).drop k ++ (d ++ rest).dropWhile isDomainChar)
      | none => none) = some (loc ++ '@' :: d, rest)
  rw [hT, if_neg hlocne, h2.1, h2.2, hmd]
  show some (loc ++ '@' :: d.take d.length, d.drop d.length ++ rest) = some (loc ++ '@' :: d, rest)
  rw [List.take_length, List.drop_length]
  simp

theorem mem_findAllF_isMatchStr :
    ∀ (f : Nat) (s : List Char), s.length ≤ f →
    ∀ m ∈ findAllF f s, IsMatchStr m := by
  intro f
  induction f with
  | zero =>
    intro s _ m hm
    simp [findAllF] at hm
  | succ g ih =>
    intro s hs m hm
    simp only [findAllF] at hm
    cases htm : tryMatch s with
    | some pr =>
      obtain ⟨m0, r⟩ := pr
      rw [htm] at hm
      rcases List.mem_cons.mp hm with h1 | h2
      · exact h1 ▸ tryMatch_isMatchStr htm
      · have hr := (tryMatch_rest_length htm).1
        exact ih r (by omega) m h2
    | none =>
      rw [htm] at hm
      cases s with
      | nil => simp at hm
      | cons a t =>
        have : t.length ≤ g := by
          simp only [List.length_cons] at hs
          omega
        exact ih t this m hm

theorem mem_findAll_isMatchStr {s m : List Char} (h : m ∈ findAll s) :
    IsMatchStr m :=
  mem_findAllF_isMatchStr s.length s (le_refl _) m h

/-- The space-separated rendering of a list of extracted addresses (the
"text rendering of the validator's own output" used to express
idempotence). -/
def renderEmails : List (List Char) → List Char
  | [] => []
  | [m] => m
  | m :: ms => m ++ ' ' :: renderEmails ms

theorem findAll_render {ms : List (List Char)}
    (h : ∀ m ∈ ms, IsMatchStr m) : findAll (renderEmails ms) = ms := by
  induction ms with
  | nil => rfl
  | cons m rest ih =>
    cases rest with
    | nil =>
      show findAll m = [m]
      have hm := h m (List.mem_cons_self _ _)
      have : tryMatch (m ++ []) = some (m, []) :=
        tryMatch_self_append hm (by intro c hc; simp at hc)
      rw [List.append_nil] at this
      rw [findAll_eq_match this]
      rfl
    | cons m2 rest2 =>
      show findAll (m ++ ' ' :: renderEmails (m2 :: rest2)) = m :: m2 :: rest2
      have hm := h m (List.mem_cons_self _ _)
      have htm : tryMatch (m ++ ' ' :: renderEmails (m2 :: rest2))
          = some (m, ' ' :: renderEmails (m2 :: rest2)) := by
        refine tryMatch_self_append hm ?_
        intro c hc
        simp only [List.head?_cons, Option.some.injEq] at hc
        subst hc
        decide
      rw [findAll_eq_match htm]
      have hskip : tryMatch (' ' :: renderEmails (m2 :: rest2)) = none := by
        unfold tryMatch
        have hsp : ¬ isLocalChar ' ' = true := by decide
        rw [List.dropWhile_cons_of_neg hsp]
        rfl
      rw [findAll_eq_skip hskip]
      exact congrArg (m :: ·) (ih (fun x hx => h x (List.mem_cons_of_mem _ hx)))

/-! ## `EmailExtractor._is_valid_email` and `EmailExtractor._extract_emails` -/

/-- The static-asset extension tokens rejected by
`EmailExtractor._is_valid_email`. -/
def invalidExtensions : List (List Char) :=
  [".png".toList, ".jpg".toList, ".jpeg".toList, ".gif".toList,
   ".svg".toList, ".webp".toList, ".css".toList, ".js".toList]

/-- The characters after the first `'@'` (Python `email.split('@')[1]` when
the split has exactly two parts). -/
def afterFirstAt (l : List Char) : List Char :=
  (l.dropWhile (fun c => !(c == '@'))).drop 1

/-- `EmailExtractor._is_valid_email`: lowercase, reject static-asset
extensions, `example`/`test@` placeholders, and candidates that do not split
into exactly one `'@'` or whose domain part is shorter than 4 characters. -/
def isValidEmail (email : List Char) : Bool :=
  let el := email.map Char.toLower
  if invalidExtensions.any (fun ext => listContains el ext) then false
  else if listContains el ("example".toList) || listContains el ("test@".toList) then false
  else if !(el.count '@' == 1) then false
  else decide (4 ≤ (afterFirstAt el).length)

/-- `EmailExtractor._extract_emails`: the set (here: exact-duplicate-free
list in first-seen order) of regex matches passing `_is_valid_email`. -/
def extractEmailsSet (text : List Char) : List (List Char) :=
  if text = [] then []
  else dedupKeep ((findAll text).filter isValidEmail)

theorem extractEmailsSet_eq (text : List Char) :
    extractEmailsSet text = dedupKeep ((findAll text).filter isValidEmail) := by
  unfold extractEmailsSet
  split
  · rename_i he
    subst he
    rfl
  · rfl

theorem mem_extract_valid {t e : List Char} (h : e ∈ extractEmailsSet t) :
    isValidEmail e = true := by
  rw [extractEmailsSet_eq] at h
  exact List.of_mem_filter (mem_dedupAux h)

theorem mem_extract_findAll {t e : List Char} (h : e ∈ extractEmailsSet t) :
    e ∈ findAll t := by
  rw [extractEmailsSet_eq] at h
  exact List.mem_of_mem_filter (mem_dedupAux h)

theorem renderEmails_ne_nil {ms : List (List Char)}
    (hne : ms ≠ []) (hel : ∀ m ∈ ms, m ≠ []) : renderEmails ms ≠ [] := by
  cases ms with
  | nil => exact absurd rfl hne
  | cons m rest =>
    cases rest with
    | nil => exact hel m (List.mem_cons_self _ _)
    | cons m2 rest2 =>
      show m ++ ' ' :: renderEmails (m2 :: rest2) ≠ []
      simp

/-- Running the extractor on a space-separated rendering of its own output
reproduces that output exactly. -/
theorem extract_render_extract (t : List Char) :
    extractEmailsSet (renderEmails (extractEmailsSet t)) = extractEmailsSet t := by
  have hmatch : ∀ m ∈ extractEmailsSet t, IsMatchStr m :=
    fun m hm => mem_findAll_isMatchStr (mem_extract_findAll hm)
  have hscan : findAll (renderEmails (extractEmailsSet t)) = extractEmailsSet t :=
    findAll_render hmatch
  rw [extractEmailsSet_eq (renderEmails (extractEmailsSet t)), hscan]
  have hfilter : (extractEmailsSet t).filter isValidEmail = extractEmailsSet t :=
    List.filter_eq_self.mpr (fun e he => mem_extract_valid he)
  rw [hfilter]
  refine dedupKeep_of_nodup ?_
  rw [extractEmailsSet_eq]
  exact dedupKeep_nodup _

/-! ## `BaseCrawler.extract_emails` (case-insensitive first-seen dedup) -/

/-- The extension tokens filtered by `BaseCrawler.extract_emails` (note:
fewer than the extractor's list). -/
def baseExtensions : List (List Char) :=
  [".png".toList, ".jpg".toList, ".gif".toList, ".svg".toList, ".webp".toList]

/-- The per-candidate filter of `BaseCrawler.extract_emails`, applied to the
lowercased candidate. -/
def baseValid (el : List Char) : Bool :=
  !(baseExtensions.any (fun ext => listContains el ext))
    && !(("example@".toList).isPrefixOf el || ("@example.com".toList).isSuffixOf el)

/-- The accumulator loop of `BaseCrawler.extract_emails`: `seen` holds the
lowercased forms already kept. -/
def baseExtractAux (seen : List (List Char)) : List (List Char) → List (List Char)
  | [] => []
  | e :: es =>
    let el := e.map Char.toLower
    if el ∈ seen then baseExtractAux seen es
    else if !(baseValid el) then baseExtractAux seen es
    else e :: baseExtractAux (el :: seen) es

/-- `BaseCrawler.extract_emails`. -/
def base_extract_emails (text : List Char) : List (List Char) :=
  if text = [] then [] else baseExtractAux [] (findAll text)

theorem baseExtractAux_mem_spec {es : List (List Char)} :
    ∀ (seen : List (List Char)) (e : List Char), e ∈ baseExtractAux seen es →
      e.map Char.toLower ∉ seen ∧ baseValid (e.map Char.toLower) = true ∧
      es.find? (fun c => c.map Char.toLower == e.map Char.toLower) = some e := by
  induction es with
  | nil =>
    intro seen e he
    simp [baseExtractAux] at he
  | cons x rest ih =>
    intro seen e he
    simp only [baseExtractAux] at he
    by_cases hx : x.map Char.toLower ∈ seen
    · rw [if_pos hx] at he
      obtain ⟨hs, hv, hf⟩ := ih seen e he
      have hne : (x.map Char.toLower == e.map Char.toLower) = false := by
        refine beq_eq_false_iff_ne.mpr ?_
        intro hc
        exact hs (hc ▸ hx)
      refine ⟨hs, hv, ?_⟩
      rw [List.find?_cons_of_neg _ (by simp [hne])]
      exact hf
    · rw [if_neg hx] at he
      by_cases hvx : baseValid (x.map Char.toLower) = true
      · rw [if_neg (by simp [hvx])] at he
        rcases List.mem_cons.mp he with h1 | h2
        · subst h1
          refine ⟨hx, hvx, ?_⟩
          rw [List.find?_cons_of_pos _ (by simp)]
        · obtain ⟨hs, hv, hf⟩ := ih (x.map Char.toLower :: seen) e h2
          have hxe : (x.map Char.toLower == e.map Char.toLower) = false := by
            refine beq_eq_false_iff_ne.mpr ?_
            intro hc
            exact hs (hc ▸ List.mem_cons_self _ _)
          refine ⟨fun hmem => hs (List.mem_cons_of_mem _ hmem), hv, ?_⟩
          rw [List.find?_cons_of_neg _ (by simp [hxe])]
          exact hf
      · rw [if_pos (by simp [Bool.eq_false_iff.mpr hvx])] at he
        obtain ⟨hs, hv, hf⟩ := ih seen e he
        have hxe : (x.map Char.toLower == e.map Char.toLower) = false := by
          refine beq_eq_false_iff_ne.mpr ?_
          intro hc
          rw [hc] at hvx
          exact hvx hv
        refine ⟨hs, hv, ?_⟩
        rw [List.find?_cons_of_neg _ (by simp [hxe])]
        exact hf

theorem baseExtractAux_pairwise (seen : List (List Char))
    (es : List (List Char)) :
    (baseExtractAux seen es).Pairwise
      (fun a b => a.map Char.toLower ≠ b.map Char.toLower) := by
  induction es generalizing seen with
  | nil => simp [baseExtractAux]
  | cons x rest ih =>
    simp only [baseExtractAux]
    by_cases hx : x.map Char.toLower ∈ seen
    · rw [if_pos hx]
      exact ih seen
    · rw [if_neg hx]
      by_cases hvx : baseValid (x.map Char.toLower) = true
      · rw [if_neg (by simp [hvx])]
        refine List.pairwise_cons.mpr ⟨?_, ih (x.map Char.toLower :: seen)⟩
        intro b hb hc
        have := (baseExtractAux_mem_spec _ b hb).1
        exact this (hc ▸ List.mem_cons_self _ _)
      · rw [if_pos (by simp [Bool.eq_false_iff.mpr hvx])]
        exact ih seen

/-! ### Lowercasing facts needed for the `'@'`-split rules -/

theorem toLower_eq_at_iff (c : Char) : Char.toLower c = '@' ↔ c = '@' := by
  constructor
  · intro h
    unfold Char.toLower at h
    simp only at h
    split at h
    · exfalso
      rename_i hle
      have hv : Nat.isValidChar (c.toNat + 32) := Or.inl (by omega)
      have h2 := congrArg Char.toNat h
      rw [Char.ofNat, dif_pos hv] at h2
      simp only [Char.ofNatAux, Char.toNat, UInt32.ofNat', UInt32.toNat,
        BitVec.toNat_ofNatLt] at h2
      simp only [Char.toNat, UInt32.toNat] at hle
      have h64 : ('@'.val.toBitVec.toNat) = 64 := by decide
      omega
    · exact h
  · intro h
    subst h
    decide

theorem count_at_map_toLower (l : List Char) :
    (l.map Char.toLower).count '@' = l.count '@' := by
  induction l with
  | nil => rfl
  | cons c t ih =>
    simp only [List.map_cons, List.count_cons, ih]
    congr 1
    by_cases hc : c = '@'
    · subst hc
      rfl
    · have h1 : (Char.toLower c == '@') = false :=
        beq_eq_false_iff_ne.mpr (fun h => hc ((toLower_eq_at_iff c).mp h))
      have h2 : (c == '@') = false := beq_eq_false_iff_ne.mpr hc
      rw [h1, h2]

theorem afterFirstAt_map_toLower (l : List Char) :
    (afterFirstAt (l.map Char.toLower)).length = (afterFirstAt l).length := by
  unfold afterFirstAt
  rw [List.dropWhile_map]
  have hp : ((fun c => !(c == '@')) ∘ Char.toLower) = (fun c => !(c == '@')) := by
    funext c
    simp only [Function.comp_apply]
    by_cases hc : c = '@'
    · subst hc
      rfl
    · have h1 : (Char.toLower c == '@') = false :=
        beq_eq_false_iff_ne.mpr (fun h => hc ((toLower_eq_at_iff c).mp h))
      have h2 : (c == '@') = false := beq_eq_false_iff_ne.mpr hc
      rw [h1, h2]
  rw [hp]
  simp

/-- The domain-length / `'@'`-split rejection rule of `_is_valid_email`,
stated on the raw candidate. -/
theorem isValidEmail_reject {email : List Char}
    (h : email.count '@' ≠ 1 ∨ (afterFirstAt email).length < 4) :
    isValidEmail email = false := by
  unfold isValidEmail
  simp only []
  split
  · rfl
  · split
    · rfl
    · split
      · rfl
      · rename_i h3
        have hcount : (email.map Char.toLower).count '@' = 1 := by
          simp only [Bool.not_eq_true', beq_eq_false_iff_ne, ne_eq,
            Decidable.not_not] at h3
          exact h3
        rcases h with h1 | h2
        · exact absurd ((count_at_map_toLower email) ▸ hcount) h1
        · refine decide_eq_false ?_
          rw [afterFirstAt_map_toLower]
          omega

/-! ## Company records and the ranking sort

`CompanyRec` models the record dictionaries built by the crawlers' search
parsers; absent/`None`/empty values are `none` or `""` (Python falsiness is
`optTruthy`).  `companies.sort(key=lambda x: len(x.get('emails', [])),
reverse=True)` is a stable descending sort by email count, modelled by the
stable insertion sort `sortDesc`. -/

structure CompanyRec where
  company_name : String := ""
  company_url : Option String := none
  job_url : Option String := none
  job_title : String := ""
  homepage : Option String := none
  emails : List String := []
  source : Option String := none
  error : Option String := none
deriving DecidableEq, Repr, Inhabited

/-- Python truthiness of an optional string. -/
def optTruthy : Option String → Bool
  | none => false
  | some s => !(s == "")

section SortDesc

variable {α : Type} (key : α → Nat)

/-- Stable insertion into a descending-sorted list: an element moves left
past strictly smaller keys only, so elements with equal keys keep their
original relative order. -/
def insertDesc (x : α) : List α → List α
  | [] => [x]
  | y :: ys => if key y ≤ key x then x :: y :: ys else y :: insertDesc x ys

/-- Stable sort, descending by `key` (the behaviour of Python's stable
`list.sort(key=..., reverse=True)`). -/
def sortDesc (l : List α) : List α := l.foldr (insertDesc key) []

theorem insertDesc_perm (x : α) (l : List α) :
    (insertDesc key x l).Perm (x :: l) := by
  induction l with
  | nil => rfl
  | cons y ys ih =>
    unfold insertDesc
    split
    · rfl
    · exact (List.Perm.cons y ih).trans (List.Perm.swap x y ys)

theorem sortDesc_perm (l : List α) : (sortDesc key l).Perm l := by
  induction l with
  | nil => rfl
  | cons x xs ih =>
    show (insertDesc key x (sortDesc key xs)).Perm (x :: xs)
    exact (insertDesc_perm key x _).trans (List.Perm.cons x ih)

theorem mem_insertDesc {x b : α} {l : List α} :
    b ∈ insertDesc key x l ↔ b = x ∨ b ∈ l := by
  rw [(insertDesc_perm key x l).mem_iff]
  simp

theorem pairwise_insertDesc {x : α} {l : List α}
    (h : l.Pairwise (fun a b => key b ≤ key a)) :
    (insertDesc key x l).Pairwise (fun a b => key b ≤ key a) := by
  induction l with
  | nil => simp [insertDesc]
  | cons y ys ih =>
    unfold insertDesc
    rcases List.pairwise_cons.mp h with ⟨hy, hys⟩
    split
    · rename_i hle
      refine List.pairwise_cons.mpr ⟨?_, h⟩
      intro b hb
      rcases List.mem_cons.mp hb with h1 | h2
      · exact h1 ▸ hle
      · exact le_trans (hy b h2) hle
    · rename_i hgt
      refine List.pairwise_cons.mpr ⟨?_, ih hys⟩
      intro b hb
      rcases (mem_insertDesc key).mp hb with h1 | h2
      · subst h1
        omega
      · exact hy b h2

theorem sortDesc_pairwise (l : List α) :
    (sortDesc key l).Pairwise (fun a b => key b ≤ key a) := by
  induction l with
  | nil => simp [sortDesc]
  | cons x xs ih => exact pairwise_insertDesc key ih

theorem insertDesc_split (x : α) (l : List α) :
    ∃ l1 l2, l = l1 ++ l2 ∧ insertDesc key x l = l1 ++ x :: l2 ∧
      ∀ y ∈ l1, key x < key y := by
  induction l with
  | nil => exact ⟨[], [], rfl, rfl, by simp⟩
  | cons y ys ih =>
    unfold insertDesc
    by_cases hle : key y ≤ key x
    · refine ⟨[], y :: ys, rfl, ?_, by simp⟩
      rw [if_pos hle]
      rfl
    · obtain ⟨l1, l2, he, hi, hgt⟩ := ih
      refine ⟨y :: l1, l2, by rw [List.cons_append, ← he], ?_, ?_⟩
      · rw [if_neg hle, hi]
        rfl
      · intro z hz
        rcases List.mem_cons.mp hz with h1 | h2
        · subst h1
          omega
        · exact hgt z h2

theorem filter_insertDesc (n : Nat) (x : α) (l : List α) :
    (insertDesc key x l).filter (fun a => key a == n)
      = if key x = n then x :: l.filter (fun a => key a == n)
        else l.filter (fun a => key a == n) := by
  obtain ⟨l1, l2, he, hi, hgt⟩ := insertDesc_split key x l
  have hl1 : l1.filter (fun a => key a == n) = [] ∨ key x ≠ n := by
    by_cases hx : key x = n
    · left
      rw [List.filter_eq_nil_iff]
      intro y hy
      have := hgt y hy
      simp only [beq_iff_eq]
      omega
    · right
      exact hx
  rw [hi, he]
  rw [List.filter_append, List.filter_append, List.filter_cons]
  by_cases hx : key x = n
  · rw [if_pos (by simp [hx]), if_pos hx]
    rcases hl1 with h0 | h0
    · rw [h0]
      rfl
    · exact absurd hx h0
  · rw [if_neg (by simp [hx]), if_neg hx]

theorem sortDesc_stable (l : List α) (n : Nat) :
    (sortDesc key l).filter (fun a => key a == n)
      = l.filter (fun a => key a == n) := by
  induction l with
  | nil => rfl
  | cons x xs ih =>
    show (insertDesc key x (sortDesc key xs)).filter (fun a => key a == n) = _
    rw [filter_insertDesc, List.filter_cons]
    by_cases hx : key x = n
    · rw [if_pos hx, if_pos (by simp [hx]), ih]
    · rw [if_neg hx, if_neg (by simp [hx]), ih]

theorem insertDesc_of_le {x : α} {l : List α}
    (h : ∀ y ∈ l, key y ≤ key x) : insertDesc key x l = x :: l := by
  cases l with
  | nil => rfl
  | cons y ys =>
    unfold insertDesc
    rw [if_pos (h y (List.mem_cons_self _ _))]

theorem sortDesc_of_pairwise {l : List α}
    (h : l.Pairwise (fun a b => key b ≤ key a)) : sortDesc key l = l := by
  induction l with
  | nil => rfl
  | cons x xs ih =>
    rcases List.pairwise_cons.mp h with ⟨hx, hxs⟩
    show insertDesc key x (sortDesc key xs) = x :: xs
    rw [ih hxs]
    exact insertDesc_of_le key hx

theorem sortDesc_idem (l : List α) :
    sortDesc key (sortDesc key l) = sortDesc key l :=
  sortDesc_of_pairwise key (sortDesc_pairwise key l)

/-! ### First / last element of the descending sort -/

def maxKey : List α → Nat
  | [] => 0
  | a :: l => max (key a) (maxKey l)

def minKeyAux (a : α) : List α → Nat
  | [] => key a
  | b :: l => min (key a) (minKeyAux b l)

def minKey : List α → Nat
  | [] => 0
  | a :: l => minKeyAux key a l

theorem le_maxKey {a : α} {l : List α} (h : a ∈ l) : key a ≤ maxKey key l := by
  induction l with
  | nil => simp at h
  | cons b t ih =>
    rcases List.mem_cons.mp h with h1 | h2
    · subst h1
      exact le_max_left _ _
    · exact le_trans (ih h2) (le_max_right _ _)

theorem maxKey_le {l : List α} {n : Nat} (h : ∀ a ∈ l, key a ≤ n) :
    maxKey key l ≤ n := by
  induction l with
  | nil => simp [maxKey]
  | cons b t ih =>
    simp only [maxKey, max_le_iff]
    exact ⟨h b (List.mem_cons_self _ _), ih (fun a ha => h a (List.mem_cons_of_mem _ ha))⟩

theorem minKeyAux_le {a b : α} {l : List α} (h : b ∈ a :: l) :
    minKeyAux key a l ≤ key b := by
  induction l generalizing a with
  | nil =>
    simp only [List.mem_cons, List.not_mem_nil, or_false] at h
    subst h
    exact le_refl _
  | cons c t ih =>
    simp only [minKeyAux, min_le_iff]
    rcases List.mem_cons.mp h with h1 | h2
    · subst h1
      left
      exact le_refl _
    · right
      exact ih h2

theorem le_minKeyAux {a : α} {l : List α} {n : Nat}
    (h : ∀ b ∈ a :: l, n ≤ key b) : n ≤ minKeyAux key a l := by
  induction l generalizing a with
  | nil => exact h a (List.mem_cons_self _ _)
  | cons c t ih =>
    simp only [minKeyAux, le_min_iff]
    refine ⟨h a (List.mem_cons_self _ _), ih ?_⟩
    intro b hb
    rcases List.mem_cons.mp hb with h1 | h2
    · exact h b (by simp [h1])
    · exact h b (by simp [List.mem_cons_of_mem, h2])

theorem minKey_le {b : α} {l : List α} (h : b ∈ l) : minKey key l ≤ key b := by
  cases l with
  | nil => simp at h
  | cons a t => exact minKeyAux_le key h

theorem le_minKey {l : List α} {n : Nat} (hne : l ≠ [])
    (h : ∀ a ∈ l, n ≤ key a) : n ≤ minKey key l := by
  cases l with
  | nil => exact absurd rfl hne
  | cons a t => exact le_minKeyAux key h

theorem sortDesc_head_filter {l : List α} (hne : l ≠ []) :
    (sortDesc key l).head? = (l.filter (fun a => key a == maxKey key l)).head? := by
  have hperm := sortDesc_perm key l
  have hpw := sortDesc_pairwise key l
  cases hs : sortDesc key l with
  | nil =>
    have : l = [] := List.eq_nil_of_length_eq_zero (by
      have := hperm.length_eq
      rw [hs] at this
      simpa using this.symm)
    exact absurd this hne
  | cons h0 t0 =>
    have hmem : h0 ∈ l := hperm.mem_iff.mp (hs ▸ List.mem_cons_self _ _)
    have hall : ∀ a ∈ l, key a ≤ key h0 := by
      intro a ha
      have ham : a ∈ h0 :: t0 := by
        rw [← hs]
        exact hperm.mem_iff.mpr ha
      rcases List.mem_cons.mp ham with h1 | h2
      · exact h1 ▸ le_refl _
      · have hpw2 : (h0 :: t0).Pairwise (fun a b => key b ≤ key a) := hs ▸ hpw
        exact (List.pairwise_cons.mp hpw2).1 a h2
    have hkey : key h0 = maxKey key l :=
      le_antisymm (le_maxKey key hmem) (maxKey_le key hall)
    rw [← sortDesc_stable key l (maxKey key l), hs]
    rw [List.filter_cons_of_pos (by simp [hkey])]
    rfl

theorem sortDesc_getLast_filter {l : List α} (hne : l ≠ []) :
    (sortDesc key l).getLast?
      = (l.filter (fun a => key a == minKey key l)).getLast? := by
  have hperm := sortDesc_perm key l
  have hpw := sortDesc_pairwise key l
  cases hs : (sortDesc key l).reverse with
  | nil =>
    have h0 : sortDesc key l = [] := by
      have := congrArg List.reverse hs
      simpa using this
    have : l = [] := List.eq_nil_of_length_eq_zero (by
      have := hperm.length_eq
      rw [h0] at this
      simpa using this.symm)
    exact absurd this hne
  | cons h0 t0 =>
    have hmem : h0 ∈ l := by
      refine hperm.mem_iff.mp ?_
      rw [← List.mem_reverse, hs]
      exact List.mem_cons_self _ _
    have hpwrev : (sortDesc key l).reverse.Pairwise (fun a b => key a ≤ key b) :=
      List.pairwise_reverse.mpr hpw
    have hall : ∀ a ∈ l, key h0 ≤ key a := by
      intro a ha
      have hmem2 : a ∈ (sortDesc key l).reverse := by
        rw [List.mem_reverse]
        exact hperm.mem_iff.mpr ha
      rw [hs] at hmem2 hpwrev
      rcases List.mem_cons.mp hmem2 with h1 | h2
      · exact h1 ▸ le_refl _
      · exact (List.pairwise_cons.mp hpwrev).1 a h2
    have hkey : key h0 = minKey key l :=
      le_antisymm (le_minKey key hne hall) (minKey_le key hmem)
    rw [← sortDesc_stable key l (minKey key l)]
    rw [List.getLast?_eq_head?_reverse, List.getLast?_eq_head?_reverse]
    rw [← List.filter_reverse, hs]
    rw [List.filter_cons_of_pos (by simp [hkey])]
    rfl

end SortDesc

/-! ## Search-stage deduplication (`SaraminCrawler.search`,
`JobKoreaCrawler.search`)

Both crawlers run the same loop over the concatenated page results: skip a
record whose key is falsy or already seen, keep the first record per key.
Saramin keys by `company_url`, JobKorea by `company_name`. -/

/-- The dedup loop, abstracted over the key projection: `key c = some k`
when the record participates with key `k`, `none` when the record is
skipped (falsy key). -/
def dedupByKeyAux (key : CompanyRec → Option String) (seen : List String) :
    List CompanyRec → List CompanyRec
  | [] => []
  | c :: cs =>
    match key c with
    | none => dedupByKeyAux key seen cs
    | some k =>
      if seen.contains k then dedupByKeyAux key seen cs
      else c :: dedupByKeyAux key (k :: seen) cs

/-- Saramin dedup key: `company['company_url']` when truthy. -/
def saraminKey (c : CompanyRec) : Option String :=
  match c.company_url with
  | none => none
  | some s => if s = "" then none else some s

/-- JobKorea dedup key: `company['company_name']` when truthy. -/
def jobkoreaKey (c : CompanyRec) : Option String :=
  if c.company_name = "" then none else some c.company_name

/-- The dedup step of `SaraminCrawler.search` (lines 48-56). -/
def saraminDedup (l : List CompanyRec) : List CompanyRec :=
  dedupByKeyAux saraminKey [] l

/-- The dedup step of `JobKoreaCrawler.search` (lines 49-58). -/
def jobkoreaDedup (l : List CompanyRec) : List CompanyRec :=
  dedupByKeyAux jobkoreaKey [] l

theorem dedupByKeyAux_cons (key : CompanyRec → Option String)
    (seen : List String) (c : CompanyRec) (cs : List CompanyRec) :
    dedupByKeyAux key seen (c :: cs)
      = match key c with
        | none => dedupByKeyAux key seen cs
        | some k =>
          if seen.contains k then dedupByKeyAux key seen cs
          else c :: dedupByKeyAux key (k :: seen) cs := rfl

theorem dedupByKeyAux_cons_none {key : CompanyRec → Option String}
    {seen : List String} {c : CompanyRec} (cs : List CompanyRec)
    (hk : key c = none) :
    dedupByKeyAux key seen (c :: cs) = dedupByKeyAux key seen cs := by
  rw [dedupByKeyAux_cons, hk]

theorem dedupByKeyAux_cons_seen {key : CompanyRec → Option String}
    {seen : List String} {c : CompanyRec} {k : String} (cs : List CompanyRec)
    (hk : key c = some k) (hs : seen.contains k = true) :
    dedupByKeyAux key seen (c :: cs) = dedupByKeyAux key seen cs := by
  rw [dedupByKeyAux_cons, hk]
  show (if seen.contains k = true then dedupByKeyAux key seen cs
    else c :: dedupByKeyAux key (k :: seen) cs) = dedupByKeyAux key seen cs
  rw [if_pos hs]

theorem dedupByKeyAux_cons_new {key : CompanyRec → Option String}
    {seen : List String} {c : CompanyRec} {k : String} (cs : List CompanyRec)
    (hk : key c = some k) (hs : seen.contains k = false) :
    dedupByKeyAux key seen (c :: cs) = c :: dedupByKeyAux key (k :: seen) cs := by
  rw [dedupByKeyAux_cons, hk]
  show (if seen.contains k = true then dedupByKeyAux key seen cs
    else c :: dedupByKeyAux key (k :: seen) cs) = c :: dedupByKeyAux key (k :: seen) cs
  rw [if_neg (by rw [hs]; simp)]

theorem dedupByKeyAux_sublist (key : CompanyRec → Option String)
    (seen : List String) (l : List CompanyRec) :
    (dedupByKeyAux key seen l).Sublist l := by
  induction l generalizing seen with
  | nil => simp [dedupByKeyAux]
  | cons c cs ih =>
    cases hk : key c with
    | none =>
      rw [dedupByKeyAux_cons_none cs hk]
      exact (ih seen).cons c
    | some k =>
      cases hs : seen.contains k with
      | true =>
        rw [dedupByKeyAux_cons_seen cs hk hs]
        exact (ih seen).cons c
      | false =>
        rw [dedupByKeyAux_cons_new cs hk hs]
        exact (ih (k :: seen)).cons₂ c

theorem dedupByKeyAux_key_some (key : CompanyRec → Option String)
    (seen : List String) (l : List CompanyRec) :
    ∀ r ∈ dedupByKeyAux key seen l, ∃ k, key r = some k ∧ k ∉ seen := by
  induction l generalizing seen with
  | nil => simp [dedupByKeyAux]
  | cons c cs ih =>
    intro r hr
    cases hk : key c with
    | none =>
      rw [dedupByKeyAux_cons_none cs hk] at hr
      exact ih seen r hr
    | some k =>
      cases hs : seen.contains k with
      | true =>
        rw [dedupByKeyAux_cons_seen cs hk hs] at hr
        exact ih seen r hr
      | false =>
        rw [dedupByKeyAux_cons_new cs hk hs] at hr
        rcases List.mem_cons.mp hr with h1 | h2
        · subst h1
          refine ⟨k, hk, ?_⟩
          simpa using hs
        · obtain ⟨k2, hk2, hk2s⟩ := ih (k :: seen) r h2
          exact ⟨k2, hk2, fun hmem => hk2s (List.mem_cons_of_mem _ hmem)⟩

theorem dedupByKeyAux_filter_seen (key : CompanyRec → Option String)
    {u : String} {seen : List String} (l : List CompanyRec) (hu : u ∈ seen) :
    (dedupByKeyAux key seen l).filter (fun r => key r == some u) = [] := by
  rw [List.filter_eq_nil_iff]
  intro r hr
  obtain ⟨k, hk, hks⟩ := dedupByKeyAux_key_some key seen l r hr
  simp only [hk, beq_iff_eq, Option.some.injEq]
  intro hku
  exact hks (hku ▸ hu)

theorem dedupByKeyAux_filter (key : CompanyRec → Option String)
    (u : String) :
    ∀ (seen : List String) (l : List CompanyRec), u ∉ seen →
    (dedupByKeyAux key seen l).filter (fun r => key r == some u)
      = (l.filter (fun r => key r == some u)).take 1 := by
  intro seen l
  induction l generalizing seen with
  | nil => intro _; rfl
  | cons c cs ih =>
    intro hu
    cases hk : key c with
    | none =>
      have hne : (key c == some u) = false := by
        simp [hk]
      rw [dedupByKeyAux_cons_none cs hk, List.filter_cons_of_neg (by simp [hne])]
      exact ih seen hu
    | some k =>
      by_cases hku : k = u
      · subst hku
        have hpos : (key c == some k) = true := by simp [hk]
        have hcont : seen.contains k = false := by
          simpa using hu
        rw [dedupByKeyAux_cons_new cs hk hcont]
        rw [List.filter_cons_of_pos (by simp [hpos]),
          List.filter_cons_of_pos (by simp [hpos])]
        rw [List.take_succ_cons, List.take_zero]
        rw [dedupByKeyAux_filter_seen key cs (List.mem_cons_self k seen)]
      · have hne : (key c == some u) = false := by
          simp [hk, hku]
        rw [List.filter_cons_of_neg (by simp [hne])]
        cases hs : seen.contains k with
        | true =>
          rw [dedupByKeyAux_cons_seen cs hk hs]
          exact ih seen hu
        | false =>
          rw [dedupByKeyAux_cons_new cs hk hs,
            List.filter_cons_of_neg (by simp [hne])]
          refine ih (k :: seen) ?_
          simp only [List.mem_cons, not_or]
          exact ⟨fun h => hku h.symm, hu⟩

/-! ## Contact-page discovery (`EmailExtractor._find_contact_pages`) and the
extraction pipeline (`EmailExtractor.extract_from_url`)

HTML anchors are given by the parser collaborator as (stripped visible
text, href) pairs; `urljoin` and `urlparse(...).netloc` are the stdlib
collaborators `uj` and `nl`.  `extract_from_url` additionally returns the
list of URLs it fetches, in order, so that the fetch budget is visible in
the model. -/

structure Anchor where
  text : List Char
  href : List Char
deriving DecidableEq, Repr, Inhabited

/-- `EmailExtractor.CONTACT_KEYWORDS`. -/
def contactKeywords : List (List Char) :=
  ["contact".toList, "about".toList, "company".toList, "footer".toList,
   "문의".toList, "연락".toList, "회사소개".toList, "고객센터".toList, "고객지원".toList]

def lowerL (l : List Char) : List Char := l.map Char.toLower

/-- An anchor qualifies when its lowercased visible text or lowercased href
contains one of the keywords. -/
def qualifiesAnchor (a : Anchor) : Bool :=
  contactKeywords.any (fun kw =>
    listContains (lowerL a.text) kw || listContains (lowerL a.href) kw)

/-- The collection loop of `_find_contact_pages`: resolve the href of each
qualifying anchor against the homepage, keep same-host candidates, and
append each resolved URL not already collected. -/
def fcpAux (uj : List Char → List Char → List Char) (nl : List Char → List Char)
    (base : List Char) (acc : List (List Char)) : List Anchor → List (List Char)
  | [] => acc
  | a :: rest =>
    if qualifiesAnchor a then
      if nl (uj base a.href) == nl base then
        if acc.contains (uj base a.href) then fcpAux uj nl base acc rest
        else fcpAux uj nl base (acc ++ [uj base a.href]) rest
      else fcpAux uj nl base acc rest
    else fcpAux uj nl base acc rest

def findContactPages (uj : List Char → List Char → List Char)
    (nl : List Char → List Char) (base : List Char)
    (anchors : List Anchor) : List (List Char) :=
  fcpAux uj nl base [] anchors

/-- The candidates surviving the qualify + same-host filter, in
anchor-encounter order. -/
def goodResolved (uj : List Char → List Char → List Char)
    (nl : List Char → List Char) (base : List Char)
    (anchors : List Anchor) : List (List Char) :=
  (anchors.filter (fun a => qualifiesAnchor a && (nl (uj base a.href) == nl base))).map
    (fun a => uj base a.href)

theorem fcpAux_eq (uj : List Char → List Char → List Char)
    (nl : List Char → List Char) (base : List Char) :
    ∀ (anchors : List Anchor) (acc : List (List Char)),
    fcpAux uj nl base acc anchors = acc ++ dedupAux acc (goodResolved uj nl base anchors) := by
  intro anchors
  induction anchors with
  | nil =>
    intro acc
    simp [fcpAux, goodResolved, dedupAux]
  | cons a rest ih =>
    intro acc
    simp only [fcpAux, goodResolved]
    by_cases hq : qualifiesAnchor a = true
    · rw [if_pos hq]
      by_cases hh : (nl (uj base a.href) == nl base) = true
      · rw [if_pos hh]
        rw [List.filter_cons_of_pos (by simp [hq, hh])]
        simp only [List.map_cons, dedupAux]
        by_cases hc : uj base a.href ∈ acc
        · rw [if_pos (by simpa using hc), if_pos hc]
          exact ih acc
        · rw [if_neg (by simpa using hc), if_neg hc]
          rw [ih (acc ++ [uj base a.href])]
          rw [@dedupAux_congr_seen (acc ++ [uj base a.href])
            (uj base a.href :: acc) _ (by intro x; simp [or_comm])]
          simp [goodResolved]
      · rw [if_neg hh]
        rw [List.filter_cons_of_neg (by simp [hh])]
        exact ih acc
    · rw [if_neg hq]
      rw [List.filter_cons_of_neg (by simp [hq])]
      exact ih acc

theorem findContactPages_eq (uj : List Char → List Char → List Char)
    (nl : List Char → List Char) (base : List Char) (anchors : List Anchor) :
    findContactPages uj nl base anchors
      = dedupKeep (goodResolved uj nl base anchors) := by
  unfold findContactPages dedupKeep
  rw [fcpAux_eq]
  rfl

theorem findContactPages_nodup (uj : List Char → List Char → List Char)
    (nl : List Char → List Char) (base : List Char) (anchors : List Anchor) :
    (findContactPages uj nl base anchors).Nodup := by
  rw [findContactPages_eq]
  exact dedupKeep_nodup _

theorem mem_findContactPages (uj : List Char → List Char → List Char)
    (nl : List Char → List Char) (base : List Char) (anchors : List Anchor)
    (u : List Char) :
    u ∈ findContactPages uj nl base anchors
      ↔ ∃ a ∈ anchors, qualifiesAnchor a = true ∧ uj base a.href = u
          ∧ nl u = nl base := by
  rw [findContactPages_eq, mem_dedupKeep_iff]
  unfold goodResolved
  constructor
  · intro h
    rcases List.mem_map.mp h with ⟨a, ha, hu⟩
    have hfa := List.of_mem_filter ha
    simp only [Bool.and_eq_true, beq_iff_eq] at hfa
    exact ⟨a, List.mem_of_mem_filter ha, hfa.1, hu, hu ▸ hfa.2⟩
  · intro ⟨a, ha, hq, hu, hn⟩
    refine List.mem_map.mpr ⟨a, ?_, hu⟩
    refine List.mem_filter.mpr ⟨ha, ?_⟩
    simp only [Bool.and_eq_true, beq_iff_eq]
    exact ⟨hq, hu ▸ hn⟩

/-! ### The mailto extraction and page-level extraction -/

structure Page where
  html : List Char
  anchors : List Anchor
deriving DecidableEq, Inhabited

def mailtoPat : List Char := "mailto:".toList

/-- Python `href.replace('mailto:', '')`: remove every (left-to-right,
non-overlapping) occurrence of the pattern. -/
def removeMailtoF : Nat → List Char → List Char
  | 0, _ => []
  | _ + 1, [] => []
  | fuel + 1, c :: t =>
    if mailtoPat.isPrefixOf (c :: t) then removeMailtoF fuel ((c :: t).drop 7)
    else c :: removeMailtoF fuel t

def removeMailto (l : List Char) : List Char := removeMailtoF l.length l

/-- Python `str.strip()` (whitespace at both ends). -/
def stripWs (l : List Char) : List Char :=
  ((l.dropWhile Char.isWhitespace).reverse.dropWhile Char.isWhitespace).reverse

/-- `href.replace('mailto:', '').split('?')[0].strip()`. -/
def mailtoEmail (href : List Char) : List Char :=
  stripWs ((removeMailto href).takeWhile (fun c => !(c == '?')))

/-- `EmailExtractor._extract_from_page` on a successfully fetched page:
regex extraction over the raw HTML plus validated `mailto:` targets; a
failed fetch yields the empty set. -/
def pageEmails (fetch : List Char → Option Page) (url : List Char) :
    List (List Char) :=
  match fetch url with
  | none => []
  | some pg =>
    dedupKeep (extractEmailsSet pg.html
      ++ pg.anchors.filterMap (fun a =>
        if mailtoPat.isPrefixOf a.href then
          if isValidEmail (mailtoEmail a.href) then some (mailtoEmail a.href)
          else none
        else none))

/-- URL normalization step of `extract_from_url`. -/
def normalizeUrl (url : List Char) : List Char :=
  if ("http://".toList).isPrefixOf url || ("https://".toList).isPrefixOf url then url
  else "https://".toList ++ url

/-- `EmailExtractor._find_contact_pages` including its own fetch of the
base URL: any fetch failure yields the empty candidate list. -/
def find_contact_pages (fetch : List Char → Option Page)
    (uj : List Char → List Char → List Char) (nl : List Char → List Char)
    (u : List Char) : List (List Char) :=
  match fetch u with
  | none => []
  | some pg => findContactPages uj nl u pg.anchors

/-- `EmailExtractor.extract_from_url`, instrumented: besides the extracted
email set it returns the list of URLs fetched, in order (main page, the
contact-page scan of the main page, then at most 3 contact pages). -/
def extract_from_url (fetch : List Char → Option Page)
    (uj : List Char → List Char → List Char) (nl : List Char → List Char)
    (url : List Char) : List (List Char) × List (List Char) :=
  if url = [] then ([], [])
  else
    (dedupKeep (pageEmails fetch (normalizeUrl url)
      ++ ((find_contact_pages fetch uj nl (normalizeUrl url)).take 3).flatMap
          (pageEmails fetch)),
     normalizeUrl url :: normalizeUrl url
       :: (find_contact_pages fetch uj nl (normalizeUrl url)).take 3)

/-! ## JobKorea search-result card classification
(`JobKoreaCrawler._parse_search_results`, lines 79-106) -/

def giReadPat : List Char := "/Recruit/GI_Read/".toList

/-- The text-bearing `GI_Read` links of a card. -/
def textLinks (card : List Anchor) : List Anchor :=
  (card.filter (fun a => listContains a.href giReadPat)).filter
    (fun a => !(a.text == []))

/-- Title/company classification of one job card: all `GI_Read` links are
collected; with fewer than 2 links or fewer than 2 text-bearing links the
card yields nothing; otherwise the links are stable-sorted by text length
descending and the first link's text is the job title, the last link's text
the company name. -/
def classifyCard (card : List Anchor) : Option (List Char × List Char) :=
  if (card.filter (fun a => listContains a.href giReadPat)).length < 2 then none
  else if (textLinks card).length < 2 then none
  else
    match (sortDesc (fun a => a.text.length) (textLinks card)).head?,
          (sortDesc (fun a => a.text.length) (textLinks card)).getLast? with
    | some h, some la => some (h.text, la.text)
    | _, _ => none

/-! ## The streaming pipeline (`server.py`, `crawl_stream.generate`) and the
batch pipeline (`SaraminCrawler.crawl_with_emails`)

Network-dependent steps are oracles: `gcu` is
`JobKoreaCrawler._get_company_url_from_job`, `gd` is `get_company_detail`,
`ee` is `EmailExtractor.extract_from_url`; each may raise
(`Except.error` carries `str(e)`). -/

inductive ProgressEvent where
  | start (total : Nat)
  | progress (current total : Nat) (record : CompanyRec)
  | complete (total : Nat)
  | error (message : String)
deriving DecidableEq, Repr

/-- `if company.get('homepage'): company['emails'] = await ...extract_from_url(...)`
with the raised exception propagated to the surrounding handler. -/
def serverEmailStep (ee : String → Except String (List String))
    (c : CompanyRec) : CompanyRec × Option String :=
  if optTruthy c.homepage then
    match ee (c.homepage.getD "") with
    | .error e => (c, some e)
    | .ok es => ({ c with emails := es }, none)
  else (c, none)

/-- `if company.get('company_url'): company['homepage'] = (await
get_company_detail(...)).get('homepage')`, then the email step. -/
def serverDetailStep (gd : String → Except String (Option String))
    (ee : String → Except String (List String))
    (c : CompanyRec) : CompanyRec × Option String :=
  if optTruthy c.company_url then
    match gd (c.company_url.getD "") with
    | .error e => (c, some e)
    | .ok hp => serverEmailStep ee { c with homepage := hp }
  else serverEmailStep ee c

/-- The enrichment body of the per-company `try` in `generate`
(server.py lines 121-143): set `source`, optionally resolve the JobKorea
company URL, resolve the homepage, extract emails.  The second component is
the message of the exception that interrupted the body, if any; the first
component is the record with all mutations made before the fault. -/
def serverEnrichOne (src : String)
    (gcu : String → Except String (Option String))
    (gd : String → Except String (Option String))
    (ee : String → Except String (List String))
    (c : CompanyRec) : CompanyRec × Option String :=
  let c0 := { c with source := some src }
  if src == "jobkorea" && optTruthy c0.job_url && !(optTruthy c0.company_url) then
    match gcu (c0.job_url.getD "") with
    | .error e => (c0, some e)
    | .ok u => serverDetailStep gd ee { c0 with company_url := u }
  else serverDetailStep gd ee c0

/-- The record carried by the progress event for one company: on a fault the
error message is written to the record's `error` field
(server.py line 148). -/
def outRec (src : String) (gcu gd : String → Except String (Option String))
    (ee : String → Except String (List String)) (c : CompanyRec) : CompanyRec :=
  match serverEnrichOne src gcu gd ee c with
  | (c2, none) => c2
  | (c2, some e) => { c2 with error := some e }

/-- The progress events of the `for idx, company in enumerate(companies)`
loop: one `progress` event per company, in order, emitted from the `try`
body on success and from the `except` handler on a fault. -/
def progressEvents (src : String) (gcu gd : String → Except String (Option String))
    (ee : String → Except String (List String)) (total : Nat) :
    Nat → List CompanyRec → List ProgressEvent
  | _, [] => []
  | idx, c :: cs =>
    ProgressEvent.progress (idx + 1) total (outRec src gcu gd ee c)
      :: progressEvents src gcu gd ee total (idx + 1) cs

def supportedSource (src : String) : Bool :=
  src == "saramin" || src == "jobkorea"

def unsupportedMsg (src : String) : String := "지원하지 않는 소스: " ++ src

/-- `crawl_stream.generate` (server.py lines 101-155): `searchRes` is the
combined outcome of crawler construction and `crawler.search(...)` (an
exception anywhere before the `start` event is caught by the outer handler
and becomes a single `error` event). -/
def generate (src : String) (gcu gd : String → Except String (Option String))
    (ee : String → Except String (List String))
    (searchRes : Except String (List CompanyRec)) : List ProgressEvent :=
  if !(supportedSource src) then [ProgressEvent.error (unsupportedMsg src)]
  else
    match searchRes with
    | .error e => [ProgressEvent.error e]
    | .ok companies =>
      ProgressEvent.start companies.length
        :: (progressEvents src gcu gd ee companies.length 0 companies
          ++ [ProgressEvent.complete companies.length])

theorem serverEmailStep_error (ee : String → Except String (List String))
    (c : CompanyRec) : (serverEmailStep ee c).1.error = c.error := by
  unfold serverEmailStep
  split
  · split <;> rfl
  · rfl

theorem serverDetailStep_error (gd : String → Except String (Option String))
    (ee : String → Except String (List String)) (c : CompanyRec) :
    (serverDetailStep gd ee c).1.error = c.error := by
  unfold serverDetailStep
  split
  · split
    · rfl
    · exact serverEmailStep_error ee _
  · exact serverEmailStep_error ee _

theorem serverEnrichOne_error (src : String)
    (gcu gd : String → Except String (Option String))
    (ee : String → Except String (List String)) (c : CompanyRec) :
    (serverEnrichOne src gcu gd ee c).1.error = c.error := by
  unfold serverEnrichOne
  simp only []
  split
  · split
    · rfl
    · exact serverDetailStep_error gd ee _
  · exact serverDetailStep_error gd ee _

/-- `outRec`'s error field is exactly the fault of the enrichment body,
provided the incoming record carried no error. -/
theorem outRec_error (src : String) (gcu gd : String → Except String (Option String))
    (ee : String → Except String (List String)) (c : CompanyRec)
    (hc : c.error = none) :
    (outRec src gcu gd ee c).error = (serverEnrichOne src gcu gd ee c).2 := by
  unfold outRec
  cases he : serverEnrichOne src gcu gd ee c with
  | mk c2 fault =>
    cases fault with
    | none =>
      have := serverEnrichOne_error src gcu gd ee c
      rw [he] at this
      simp only at this
      simp [this, hc]
    | some e => rfl

theorem progressEvents_eq (src : String)
    (gcu gd : String → Except String (Option String))
    (ee : String → Except String (List String)) (total : Nat) :
    ∀ (l : List CompanyRec) (idx : Nat),
    progressEvents src gcu gd ee total idx l
      = (List.range l.length).map (fun i =>
          ProgressEvent.progress (idx + i + 1) total
            (outRec src gcu gd ee (l.getD i default))) := by
  intro l
  induction l with
  | nil => intro idx; rfl
  | cons c cs ih =>
    intro idx
    simp only [progressEvents, List.length_cons, List.range_succ_eq_map,
      List.map_cons, List.map_map]
    congr 1
    rw [ih (idx + 1)]
    refine List.map_congr_left ?_
    intro i hi
    simp only [Function.comp_apply, List.getD_cons_succ]
    congr 1
    omega

/-! ### The Saramin batch pipeline -/

/-- `if company['homepage']: company['emails'] = ...` in
`SaraminCrawler.crawl_with_emails`; an exception leaves the record as it
was at the fault (and is swallowed by `except ... continue`). -/
def saraminEmailStep (ee : String → Except String (List String))
    (c : CompanyRec) : CompanyRec :=
  if optTruthy c.homepage then
    match ee (c.homepage.getD "") with
    | .error _ => c
    | .ok es => { c with emails := es }
  else c

/-- The per-company enrichment of `SaraminCrawler.crawl_with_emails`
(lines 203-223): homepage resolution then email extraction, with the
`except` clause keeping the partially mutated record and writing nothing to
`error`. -/
def saraminEnrichOne (gd : String → Except String (Option String))
    (ee : String → Except String (List String)) (c : CompanyRec) : CompanyRec :=
  if optTruthy c.company_url then
    match gd (c.company_url.getD "") with
    | .error _ => c
    | .ok hp => saraminEmailStep ee { c with homepage := hp }
  else saraminEmailStep ee c

/-- The ranking stage
(`companies.sort(key=lambda x: len(x.get('emails', [])), reverse=True)`). -/
def rankRecords (l : List CompanyRec) : List CompanyRec :=
  sortDesc (fun r => r.emails.length) l

/-- `SaraminCrawler.crawl_with_emails` after the search stage: enrich every
record in order, then stable-sort by email count descending
(lines 202-228). -/
def crawl_with_emails (gd : String → Except String (Option String))
    (ee : String → Except String (List String))
    (companies : List CompanyRec) : List CompanyRec :=
  rankRecords (companies.map (saraminEnrichOne gd ee))

theorem saraminEmailStep_error (ee : String → Except String (List String))
    (c : CompanyRec) : (saraminEmailStep ee c).error = c.error := by
  unfold saraminEmailStep
  split
  · split <;> rfl
  · rfl

theorem saraminEnrichOne_error (gd : String → Except String (Option String))
    (ee : String → Except String (List String)) (c : CompanyRec) :
    (saraminEnrichOne gd ee c).error = c.error := by
  unfold saraminEnrichOne
  split
  · split
    · rfl
    · exact saraminEmailStep_error ee _
  · exact saraminEmailStep_error ee _

/-! ### Key/field bridges for the two dedup instances -/

theorem saraminKey_beq {u : String} (hu : u ≠ "") (r : CompanyRec) :
    (saraminKey r == some u) = (r.company_url == some u) := by
  have hu' : ("" == u) = false := beq_eq_false_iff_ne.mpr (fun h => hu h.symm)
  cases hc : r.company_url with
  | none =>
    have h1 : saraminKey r = none := by
      unfold saraminKey
      rw [hc]
    rw [h1]
  | some s =>
    by_cases hs : s = ""
    · subst hs
      have h1 : saraminKey r = none := by
        unfold saraminKey
        rw [hc]
        show (if ("" : String) = "" then none else some "") = none
        rw [if_pos rfl]
      rw [h1]
      show false = (some "" == some u)
      show false = ("" == u)
      rw [hu']
    · have h1 : saraminKey r = some s := by
        unfold saraminKey
        rw [hc]
        show (if s = "" then none else some s) = some s
        rw [if_neg hs]
      rw [h1]

theorem jobkoreaKey_beq {u : String} (hu : u ≠ "") (r : CompanyRec) :
    (jobkoreaKey r == some u) = (r.company_name == u) := by
  have hu' : ("" == u) = false := beq_eq_false_iff_ne.mpr (fun h => hu h.symm)
  by_cases hs : r.company_name = ""
  · have h1 : jobkoreaKey r = none := by
      unfold jobkoreaKey
      rw [if_pos hs]
    rw [h1, hs]
    show false = ("" == u)
    rw [hu']
  · have h1 : jobkoreaKey r = some r.company_name := by
      unfold jobkoreaKey
      rw [if_neg hs]
    rw [h1]
    rfl

theorem saraminKey_of_none {r : CompanyRec} (h : r.company_url = none) :
    saraminKey r = none := by
  unfold saraminKey
  rw [h]

theorem saraminKey_of_empty {r : CompanyRec} (h : r.company_url = some "") :
    saraminKey r = none := by
  unfold saraminKey
  rw [h]
  show (if ("" : String) = "" then none else some "") = none
  rw [if_pos rfl]

theorem jobkoreaKey_of_empty {r : CompanyRec} (h : r.company_name = "") :
    jobkoreaKey r = none := by
  unfold jobkoreaKey
  rw [if_pos h]

/-! ## Claim theorems -/

/-- C10: when the homepage URL argument is empty (the only falsy value of
the `str` parameter), `EmailExtractor.extract_from_url` returns the empty
list immediately; the instrumented fetch list is empty, so no network fetch
and no contact-page discovery happens — for every fetch/urljoin/urlparse
collaborator. -/
theorem C10_empty_url_short_circuit :
    ∀ (fetch : List Char → Option Page)
      (uj : List Char → List Char → List Char) (nl : List Char → List Char),
    extract_from_url fetch uj nl [] = ([], []) := by
  intro fetch uj nl
  rfl

/-- C9: the email validator/extractor is idempotent — running
`_extract_emails` on a (space-separated) text rendering of its own output
reproduces exactly that output — and every address it emits is itself
accepted by `_is_valid_email`. -/
theorem C9_validator_idempotent :
    (∀ t : List Char,
      extractEmailsSet (renderEmails (extractEmailsSet t)) = extractEmailsSet t)
    ∧ (∀ (t e : List Char), e ∈ extractEmailsSet t → isValidEmail e = true) :=
  ⟨extract_render_extract, fun _ _ he => mem_extract_valid he⟩

/-- C9 witness: the theorem applied at a concrete input. -/
theorem C9_witness :
    ("x@abcd.ef".toList ∈ extractEmailsSet ("x@abcd.ef img.png".toList))
    ∧ isValidEmail ("x@abcd.ef".toList) = true
    ∧ extractEmailsSet (renderEmails (extractEmailsSet ("x@abcd.ef img.png".toList)))
        = extractEmailsSet ("x@abcd.ef img.png".toList) :=
  ⟨by decide,
    C9_validator_idempotent.2 ("x@abcd.ef img.png".toList) ("x@abcd.ef".toList)
      (by decide),
    C9_validator_idempotent.1 ("x@abcd.ef img.png".toList)⟩

/-- C3 counterexample: contrary to the claim, `a@b.co` is NOT excluded —
its domain part `b.co` has length exactly 4, the boundary check rejects
only lengths `< 4`, so the validator accepts it and the extractor emits
it. -/
theorem C3_counterexample :
    isValidEmail ("a@b.co".toList) = true
    ∧ "a@b.co".toList ∈ extractEmailsSet ("a@b.co".toList) := by
  exact ⟨by decide, by decide⟩

/-- C3 amended: a candidate is rejected when its domain part (text after
the `'@'`) is shorter than 4 characters or it does not split into exactly
one `'@'`; `a@b.c` never appears in the output for any input text,
`a@bc.co` is included, and `a@b.co` is also included (its domain has length
exactly 4). -/
theorem C3_domain_boundary :
    (∀ email : List Char,
      email.count '@' ≠ 1 ∨ (afterFirstAt email).length < 4 →
      isValidEmail email = false)
    ∧ (∀ t : List Char, "a@b.c".toList ∉ extractEmailsSet t)
    ∧ "a@bc.co".toList ∈ extractEmailsSet ("a@bc.co".toList)
    ∧ "a@b.co".toList ∈ extractEmailsSet ("a@b.co".toList) := by
  refine ⟨fun email h => isValidEmail_reject h, ?_, by decide, by decide⟩
  intro t hmem
  have hv := mem_extract_valid hmem
  rw [show isValidEmail ("a@b.c".toList) = false from by decide] at hv
  exact absurd hv (by simp)

/-- C3 witness: the rejection rule applied at a concrete candidate. -/
theorem C3_witness :
    (("x@y".toList).count '@' ≠ 1 ∨ (afterFirstAt ("x@y".toList)).length < 4)
    ∧ isValidEmail ("x@y".toList) = false :=
  ⟨by decide, C3_domain_boundary.1 _ (by decide)⟩

/-- C4 counterexample: the extractor output — which is what populates a
record's `emails` — deduplicates with a plain `set`, so two addresses that
differ only in letter case both survive. -/
theorem C4_counterexample :
    "Ab@abcd.com".toList ∈ extractEmailsSet ("Ab@abcd.com ab@abcd.com".toList)
    ∧ "ab@abcd.com".toList ∈ extractEmailsSet ("Ab@abcd.com ab@abcd.com".toList)
    ∧ lowerL ("Ab@abcd.com".toList) = lowerL ("ab@abcd.com".toList)
    ∧ "Ab@abcd.com".toList ≠ "ab@abcd.com".toList := by
  exact ⟨by decide, by decide, by decide, by decide⟩

/-- C4 amended: case-insensitive dedup with first-seen casing holds for
`BaseCrawler.extract_emails` (no two outputs share a lowercase form, and
each kept address is the first regex match of its lowercase class), while
`EmailExtractor._extract_emails` — the function feeding records' `emails` —
suppresses only exact duplicates. -/
theorem C4_case_dedup :
    (∀ t : List Char,
      (base_extract_emails t).Pairwise (fun a b => lowerL a ≠ lowerL b))
    ∧ (∀ (t e : List Char), e ∈ base_extract_emails t →
        (findAll t).find? (fun c => lowerL c == lowerL e) = some e)
    ∧ (∀ t : List Char, (extractEmailsSet t).Nodup) := by
  refine ⟨?_, ?_, ?_⟩
  · intro t
    unfold base_extract_emails
    split
    · simp
    · exact baseExtractAux_pairwise [] _
  · intro t e he
    unfold base_extract_emails at he
    split at he
    · simp at he
    · exact (baseExtractAux_mem_spec [] e he).2.2
  · intro t
    rw [extractEmailsSet_eq]
    exact dedupKeep_nodup _

/-- C4 witness: first-seen casing kept by the base crawler at a concrete
input. -/
theorem C4_witness :
    ("Ab@abcd.com".toList ∈ base_extract_emails ("Ab@abcd.com ab@abcd.com".toList))
    ∧ (findAll ("Ab@abcd.com ab@abcd.com".toList)).find?
        (fun c => lowerL c == lowerL ("Ab@abcd.com".toList))
      = some ("Ab@abcd.com".toList) :=
  ⟨by decide, C4_case_dedup.2.1 _ _ (by decide)⟩

/-- C5: the ranking stage is a stable descending sort by email count — the
result is sorted descending, is a permutation of the input, records of any
fixed email count keep their relative input order, re-ranking is a no-op,
and on counts `[2,0,2,1]` the ranked order is input indices
`[0,2,3,1]`. -/
theorem C5_ranking_stable :
    (∀ l : List CompanyRec,
      (rankRecords l).Pairwise (fun a b => b.emails.length ≤ a.emails.length))
    ∧ (∀ l : List CompanyRec, (rankRecords l).Perm l)
    ∧ (∀ (l : List CompanyRec) (n : Nat),
        (rankRecords l).filter (fun r => r.emails.length == n)
          = l.filter (fun r => r.emails.length == n))
    ∧ (∀ l : List CompanyRec, rankRecords (rankRecords l) = rankRecords l)
    ∧ rankRecords
        [{ company_name := "r0", emails := ["a", "b"] },
         { company_name := "r1" },
         { company_name := "r2", emails := ["c", "d"] },
         { company_name := "r3", emails := ["e"] }]
      = [{ company_name := "r0", emails := ["a", "b"] },
         { company_name := "r2", emails := ["c", "d"] },
         { company_name := "r3", emails := ["e"] },
         { company_name := "r1" }] :=
  ⟨fun l => sortDesc_pairwise _ l, fun l => sortDesc_perm _ l,
   fun l n => sortDesc_stable _ l n, fun l => sortDesc_idem _ l, by decide⟩

/-- C6: search-stage dedup keeps the first occurrence.  The Saramin output
is a sublist of the input (relative order preserved) made of records with a
truthy `company_url`, and for every nonempty URL `u` it keeps exactly the
first input record with that URL; JobKorea behaves the same with
`company_name` as the key. -/
theorem C6_search_dedup :
    (∀ l : List CompanyRec, (saraminDedup l).Sublist l
      ∧ ∀ r ∈ saraminDedup l, optTruthy r.company_url = true)
    ∧ (∀ (l : List CompanyRec) (u : String), u ≠ "" →
        (saraminDedup l).filter (fun r => r.company_url == some u)
          = (l.filter (fun r => r.company_url == some u)).take 1)
    ∧ (∀ l : List CompanyRec, (jobkoreaDedup l).Sublist l
      ∧ ∀ r ∈ jobkoreaDedup l, r.company_name ≠ "")
    ∧ (∀ (l : List CompanyRec) (u : String), u ≠ "" →
        (jobkoreaDedup l).filter (fun r => r.company_name == u)
          = (l.filter (fun r => r.company_name == u)).take 1) := by
  refine ⟨?_, ?_, ?_, ?_⟩
  · intro l
    refine ⟨dedupByKeyAux_sublist _ _ _, ?_⟩
    intro r hr
    obtain ⟨k, hk, _⟩ := dedupByKeyAux_key_some saraminKey [] l r hr
    cases hc : r.company_url with
    | none => rw [saraminKey_of_none hc] at hk; exact absurd hk (by simp)
    | some s =>
      by_cases hs : s = ""
      · subst hs
        rw [saraminKey_of_empty hc] at hk
        exact absurd hk (by simp)
      · unfold optTruthy
        simp [beq_eq_false_iff_ne.mpr hs]
  · intro l u hu
    have h1 : (saraminDedup l).filter (fun r => r.company_url == some u)
        = (saraminDedup l).filter (fun r => saraminKey r == some u) :=
      List.filter_congr (fun r _ => (saraminKey_beq hu r).symm)
    have h2 : l.filter (fun r => r.company_url == some u)
        = l.filter (fun r => saraminKey r == some u) :=
      List.filter_congr (fun r _ => (saraminKey_beq hu r).symm)
    rw [h1, h2]
    exact dedupByKeyAux_filter saraminKey u [] l (by simp)
  · intro l
    refine ⟨dedupByKeyAux_sublist _ _ _, ?_⟩
    intro r hr
    obtain ⟨k, hk, _⟩ := dedupByKeyAux_key_some jobkoreaKey [] l r hr
    intro hs
    rw [jobkoreaKey_of_empty hs] at hk
    exact absurd hk (by simp)
  · intro l u hu
    have h1 : (jobkoreaDedup l).filter (fun r => r.company_name == u)
        = (jobkoreaDedup l).filter (fun r => jobkoreaKey r == some u) :=
      List.filter_congr (fun r _ => (jobkoreaKey_beq hu r).symm)
    have h2 : l.filter (fun r => r.company_name == u)
        = l.filter (fun r => jobkoreaKey r == some u) :=
      List.filter_congr (fun r _ => (jobkoreaKey_beq hu r).symm)
    rw [h1, h2]
    exact dedupByKeyAux_filter jobkoreaKey u [] l (by simp)

/-- C6 witness: a concatenated result list with a duplicated Saramin URL
and a duplicated JobKorea name keeps exactly the first occurrence of
each. -/
theorem C6_witness :
    (("du" : String) ≠ "")
    ∧ (saraminDedup
        [{ company_name := "a", company_url := some "du", job_title := "t1" },
         { company_name := "b", company_url := some "" },
         { company_name := "c", company_url := some "du", job_title := "t2" }]).filter
        (fun r => r.company_url == some "du")
      = ([{ company_name := "a", company_url := some "du", job_title := "t1" },
          { company_name := "b", company_url := some "" },
          { company_name := "c", company_url := some "du", job_title := "t2" }].filter
          (fun r => r.company_url == some "du")).take 1
    ∧ (jobkoreaDedup
        [{ company_name := "du", job_title := "t1" },
         { company_name := "du", job_title := "t2" }]).filter
        (fun r => r.company_name == "du")
      = ([{ company_name := "du", job_title := "t1" },
          { company_name := "du", job_title := "t2" }].filter
          (fun r => r.company_name == "du")).take 1 :=
  ⟨by decide,
   C6_search_dedup.2.1
     [{ company_name := "a", company_url := some "du", job_title := "t1" },
      { company_name := "b", company_url := some "" },
      { company_name := "c", company_url := some "du", job_title := "t2" }]
     "du" (by decide),
   C6_search_dedup.2.2.2
     [{ company_name := "du", job_title := "t1" },
      { company_name := "du", job_title := "t2" }]
     "du" (by decide)⟩

/-- C7: contact-page discovery and fetch cap.  The discovered list is
exactly the qualifying anchors' resolved same-host URLs, deduplicated by
resolved URL in anchor-encounter order (`dedupKeep` of `goodResolved`),
with no duplicates; membership is precisely "some qualifying anchor
resolves to it on the same host"; the extraction pipeline then fetches at
most the first 3 of them, in that order; on a concrete homepage with 10
qualifying anchors exactly the first 3 are fetched. -/
theorem C7_contact_pages_cap :
    (∀ (uj : List Char → List Char → List Char) (nl : List Char → List Char)
       (base : List Char) (anchors : List Anchor),
      findContactPages uj nl base anchors = dedupKeep (goodResolved uj nl base anchors)
      ∧ (findContactPages uj nl base anchors).Nodup
      ∧ ∀ u, u ∈ findContactPages uj nl base anchors
          ↔ ∃ a ∈ anchors, qualifiesAnchor a = true ∧ uj base a.href = u ∧ nl u = nl base)
    ∧ (∀ (fetch : List Char → Option Page)
         (uj : List Char → List Char → List Char) (nl : List Char → List Char)
         (url : List Char) (pg : Page),
        url ≠ [] → fetch (normalizeUrl url) = some pg →
        ((extract_from_url fetch uj nl url).2.drop 2).length ≤ 3
        ∧ (extract_from_url fetch uj nl url).2.drop 2
            = (findContactPages uj nl (normalizeUrl url) pg.anchors).take 3)
    ∧ (extract_from_url
        (fun _ => some { html := [], anchors :=
          [⟨"contact".toList, "/c0".toList⟩, ⟨"contact".toList, "/c1".toList⟩,
           ⟨"contact".toList, "/c2".toList⟩, ⟨"contact".toList, "/c3".toList⟩,
           ⟨"contact".toList, "/c4".toList⟩, ⟨"contact".toList, "/c5".toList⟩,
           ⟨"contact".toList, "/c6".toList⟩, ⟨"contact".toList, "/c7".toList⟩,
           ⟨"contact".toList, "/c8".toList⟩, ⟨"contact".toList, "/c9".toList⟩] })
        (fun b h => b ++ h) (fun _ => []) ("B".toList)).2.drop 2
      = ["https://B/c0".toList, "https://B/c1".toList, "https://B/c2".toList] := by
  refine ⟨?_, ?_, ?_⟩
  · intro uj nl base anchors
    exact ⟨findContactPages_eq uj nl base anchors,
      findContactPages_nodup uj nl base anchors,
      mem_findContactPages uj nl base anchors⟩
  · intro fetch uj nl url pg hurl hfetch
    have hfc : find_contact_pages fetch uj nl (normalizeUrl url)
        = findContactPages uj nl (normalizeUrl url) pg.anchors := by
      unfold find_contact_pages
      rw [hfetch]
    have hval : (extract_from_url fetch uj nl url).2
        = normalizeUrl url :: normalizeUrl url
          :: (find_contact_pages fetch uj nl (normalizeUrl url)).take 3 := by
      unfold extract_from_url
      rw [if_neg hurl]
    rw [hval, hfc]
    refine ⟨?_, rfl⟩
    simp only [List.drop_succ_cons, List.drop_zero]
    exact List.length_take_le 3 _
  · exact (by decide)

/-- C7 witness: the fetch-cap statement applied at the concrete
10-qualifying-anchor homepage. -/
theorem C7_witness :
    (("B".toList : List Char) ≠ [])
    ∧ ((extract_from_url
        (fun _ => some ({ html := [], anchors :=
          [⟨"contact".toList, "/c0".toList⟩, ⟨"contact".toList, "/c1".toList⟩,
           ⟨"contact".toList, "/c2".toList⟩, ⟨"contact".toList, "/c3".toList⟩,
           ⟨"contact".toList, "/c4".toList⟩, ⟨"contact".toList, "/c5".toList⟩,
           ⟨"contact".toList, "/c6".toList⟩, ⟨"contact".toList, "/c7".toList⟩,
           ⟨"contact".toList, "/c8".toList⟩, ⟨"contact".toList, "/c9".toList⟩] } : Page))
        (fun b h => b ++ h) (fun _ => []) ("B".toList)).2.drop 2).length ≤ 3 :=
  ⟨by decide,
   (C7_contact_pages_cap.2.1 _ _ _ _
     ({ html := [], anchors :=
          [⟨"contact".toList, "/c0".toList⟩, ⟨"contact".toList, "/c1".toList⟩,
           ⟨"contact".toList, "/c2".toList⟩, ⟨"contact".toList, "/c3".toList⟩,
           ⟨"contact".toList, "/c4".toList⟩, ⟨"contact".toList, "/c5".toList⟩,
           ⟨"contact".toList, "/c6".toList⟩, ⟨"contact".toList, "/c7".toList⟩,
           ⟨"contact".toList, "/c8".toList⟩, ⟨"contact".toList, "/c9".toList⟩] } : Page)
     (by decide) (by decide)).1⟩

/-- C8 counterexample: a card with two text-bearing links of equal-length
texts (`"ab"` then `"cd"`).  The company name is taken from the LAST link
(`"cd"`), not the first-encountered one (`"ab"`), so the tie among
equal-length texts is not broken toward the earlier link for the company
name (while the job title does take the first link's text). -/
theorem C8_counterexample :
    classifyCard
      [⟨"ab".toList, "/Recruit/GI_Read/1".toList⟩,
       ⟨"cd".toList, "/Recruit/GI_Read/2".toList⟩]
      = some ("ab".toList, "cd".toList)
    ∧ ("ab".toList).length = ("cd".toList).length
    ∧ "cd".toList ≠ "ab".toList := by
  exact ⟨by decide, by decide, by decide⟩

/-- C8 amended: for a job card with at least two text-bearing `GI_Read`
links, the job title is the text of the FIRST-encountered link among those
of maximal text length, and the company name is the text of the
LAST-encountered link among those of minimal text length (the stable
descending sort puts equal-length links in encounter order and the code
takes the first resp. last element); cards with fewer than two text-bearing
links produce no record. -/
theorem C8_card_classification :
    (∀ card : List Anchor, (textLinks card).length < 2 → classifyCard card = none)
    ∧ (∀ card : List Anchor, 2 ≤ (textLinks card).length →
        ∃ ti co, classifyCard card = some (ti, co)
          ∧ some ti = (((textLinks card).filter (fun a =>
              a.text.length == maxKey (fun a => a.text.length) (textLinks card))).head?).map
                Anchor.text
          ∧ some co = (((textLinks card).filter (fun a =>
              a.text.length == minKey (fun a => a.text.length) (textLinks card))).getLast?).map
                Anchor.text) := by
  constructor
  · intro card h
    unfold classifyCard
    by_cases hl : (card.filter (fun a => listContains a.href giReadPat)).length < 2
    · rw [if_pos hl]
    · rw [if_neg hl, if_pos h]
  · intro card h2
    have hlinks : ¬ (card.filter (fun a => listContains a.href giReadPat)).length < 2 := by
      have : (textLinks card).length
          ≤ (card.filter (fun a => listContains a.href giReadPat)).length := by
        unfold textLinks
        exact List.length_filter_le _ _
      omega
    have htl : ¬ (textLinks card).length < 2 := by omega
    have htlne : textLinks card ≠ [] := by
      intro h0
      rw [h0] at h2
      simp at h2
    have hlen : (sortDesc (fun a => a.text.length) (textLinks card)).length
        = (textLinks card).length :=
      (sortDesc_perm (fun a => a.text.length) (textLinks card)).length_eq
    have hsne : sortDesc (fun a => a.text.length) (textLinks card) ≠ [] := by
      intro h0
      rw [h0] at hlen
      simp only [List.length_nil] at hlen
      exact htlne (List.length_eq_zero.mp hlen.symm)
    cases hh : (sortDesc (fun a => a.text.length) (textLinks card)).head? with
    | none =>
      rw [List.head?_eq_none_iff] at hh
      exact absurd hh hsne
    | some hd =>
      cases hl : (sortDesc (fun a => a.text.length) (textLinks card)).getLast? with
      | none =>
        rw [List.getLast?_eq_head?_reverse, List.head?_eq_none_iff,
          List.reverse_eq_nil_iff] at hl
        exact absurd hl hsne
      | some la =>
        refine ⟨hd.text, la.text, ?_, ?_, ?_⟩
        · unfold classifyCard
          rw [if_neg hlinks, if_neg htl, hh, hl]
        · rw [← sortDesc_head_filter (fun a => a.text.length) htlne, hh]
          rfl
        · rw [← sortDesc_getLast_filter (fun a => a.text.length) htlne, hl]
          rfl

/-- C8 witness: the classification characterization applied at a concrete
card. -/
theorem C8_witness :
    2 ≤ (textLinks
      [⟨"ab".toList, "/Recruit/GI_Read/1".toList⟩,
       ⟨"cd".toList, "/Recruit/GI_Read/2".toList⟩]).length
    ∧ ∃ ti co, classifyCard
        [⟨"ab".toList, "/Recruit/GI_Read/1".toList⟩,
         ⟨"cd".toList, "/Recruit/GI_Read/2".toList⟩] = some (ti, co)
      ∧ some ti = (((textLinks
          [⟨"ab".toList, "/Recruit/GI_Read/1".toList⟩,
           ⟨"cd".toList, "/Recruit/GI_Read/2".toList⟩]).filter (fun a =>
            a.text.length == maxKey (fun a => a.text.length) (textLinks
              [⟨"ab".toList, "/Recruit/GI_Read/1".toList⟩,
               ⟨"cd".toList, "/Recruit/GI_Read/2".toList⟩]))).head?).map Anchor.text
      ∧ some co = (((textLinks
          [⟨"ab".toList, "/Recruit/GI_Read/1".toList⟩,
           ⟨"cd".toList, "/Recruit/GI_Read/2".toList⟩]).filter (fun a =>
            a.text.length == minKey (fun a => a.text.length) (textLinks
              [⟨"ab".toList, "/Recruit/GI_Read/1".toList⟩,
               ⟨"cd".toList, "/Recruit/GI_Read/2".toList⟩]))).getLast?).map Anchor.text :=
  ⟨by decide,
   C8_card_classification.2
     [⟨"ab".toList, "/Recruit/GI_Read/1".toList⟩,
      ⟨"cd".toList, "/Recruit/GI_Read/2".toList⟩] (by decide)⟩

theorem generate_ok {src : String} (gcu gd : String → Except String (Option String))
    (ee : String → Except String (List String)) (l : List CompanyRec)
    (hsrc : supportedSource src = true) :
    generate src gcu gd ee (Except.ok l)
      = ProgressEvent.start l.length
        :: (progressEvents src gcu gd ee l.length 0 l
          ++ [ProgressEvent.complete l.length]) := by
  unfold generate
  rw [if_neg (by rw [hsrc]; simp)]

theorem generate_err {src : String} (gcu gd : String → Except String (Option String))
    (ee : String → Except String (List String)) (e : String)
    (hsrc : supportedSource src = true) :
    generate src gcu gd ee (Except.error e) = [ProgressEvent.error e] := by
  unfold generate
  rw [if_neg (by rw [hsrc]; simp)]

/-- C2: the streaming event sequence.  For every run over `N` searched
companies the emitted events are exactly one `start{N}`, then `N`
`progress` events with `current = 1..N` in ascending order, then exactly
one terminal `complete{N}`; if the search stage itself throws before
producing anything, a single `error` event is emitted instead of `start`
and nothing follows it. -/
theorem C2_streaming_events :
    (∀ (src : String) (gcu gd : String → Except String (Option String))
       (ee : String → Except String (List String)) (l : List CompanyRec),
      supportedSource src = true →
      ∃ rec : Nat → CompanyRec,
        generate src gcu gd ee (Except.ok l)
          = ProgressEvent.start l.length
            :: ((List.range l.length).map (fun i =>
                ProgressEvent.progress (i + 1) l.length (rec i))
              ++ [ProgressEvent.complete l.length]))
    ∧ (∀ (src : String) (gcu gd : String → Except String (Option String))
         (ee : String → Except String (List String)) (e : String),
        supportedSource src = true →
        generate src gcu gd ee (Except.error e) = [ProgressEvent.error e]) := by
  constructor
  · intro src gcu gd ee l hsrc
    refine ⟨fun i => outRec src gcu gd ee (l.getD i default), ?_⟩
    rw [generate_ok gcu gd ee l hsrc, progressEvents_eq]
    congr 2
    refine List.map_congr_left ?_
    intro i _
    congr 1
    omega
  · intro src gcu gd ee e hsrc
    exact generate_err gcu gd ee e hsrc

/-- C2 witness: for `N = 5` companies the event sequence is exactly
`start{5}`, `progress{1..5,5}`, `complete{5}` — seven events in that
order — and a failing search yields the single `error` event. -/
theorem C2_witness :
    supportedSource "saramin" = true
    ∧ (∃ rec : Nat → CompanyRec,
        generate "saramin" (fun _ => Except.ok none) (fun _ => Except.ok none)
          (fun _ => Except.ok [])
          (Except.ok [{ company_name := "a" }, { company_name := "b" },
            { company_name := "c" }, { company_name := "d" },
            { company_name := "e" }])
          = ProgressEvent.start 5
            :: ((List.range 5).map (fun i => ProgressEvent.progress (i + 1) 5 (rec i))
              ++ [ProgressEvent.complete 5]))
    ∧ generate "saramin" (fun _ => Except.ok none) (fun _ => Except.ok none)
        (fun _ => Except.ok []) (Except.error "search failed")
      = [ProgressEvent.error "search failed"] :=
  ⟨by decide,
   C2_streaming_events.1 "saramin" (fun _ => Except.ok none) (fun _ => Except.ok none)
     (fun _ => Except.ok [])
     [{ company_name := "a" }, { company_name := "b" }, { company_name := "c" },
      { company_name := "d" }, { company_name := "e" }] (by decide),
   C2_streaming_events.2 "saramin" (fun _ => Except.ok none) (fun _ => Except.ok none)
     (fun _ => Except.ok []) "search failed" (by decide)⟩

/-- C1 counterexample: in the batch pipeline
(`SaraminCrawler.crawl_with_emails`), when enriching the 2nd of 3 companies
throws, all 3 records are still returned, but NO record carries an error
message — the `except` clause only logs and continues, so the failing
record's `error` field stays unset, contrary to the claim. -/
theorem C1_counterexample :
    (crawl_with_emails (fun _ => Except.ok none)
      (fun u => if u == "h2" then Except.error "boom" else Except.ok ["x@abcd.ef"])
      [{ company_name := "c1", homepage := some "h1" },
       { company_name := "c2", homepage := some "h2" },
       { company_name := "c3", homepage := some "h3" }]).length = 3
    ∧ ((crawl_with_emails (fun _ => Except.ok none)
        (fun u => if u == "h2" then Except.error "boom" else Except.ok ["x@abcd.ef"])
        [{ company_name := "c1", homepage := some "h1" },
         { company_name := "c2", homepage := some "h2" },
         { company_name := "c3", homepage := some "h3" }]).filter
        (fun r => r.company_name == "c2")).map (fun r => r.error) = [none] := by
  exact ⟨by decide, by decide⟩

/-- C1 amended: per-company containment holds in both pipelines — the batch
pipeline processes every company and returns all `N` records (a permutation
of the enriched inputs) but leaves `error` unset on every record; the
streaming pipeline emits one progress record per company in order, and
there the emitted record's `error` field is exactly the enrichment fault
message (`none` for records that enriched without fault), provided the
searched records carried no prior error. -/
theorem C1_containment :
    (∀ (gd : String → Except String (Option String))
       (ee : String → Except String (List String)) (l : List CompanyRec),
      (crawl_with_emails gd ee l).length = l.length
      ∧ (crawl_with_emails gd ee l).Perm (l.map (saraminEnrichOne gd ee))
      ∧ ((∀ c ∈ l, c.error = none) → ∀ r ∈ crawl_with_emails gd ee l, r.error = none))
    ∧ (∀ (src : String) (gcu gd : String → Except String (Option String))
         (ee : String → Except String (List String)) (l : List CompanyRec),
        supportedSource src = true →
        generate src gcu gd ee (Except.ok l)
          = ProgressEvent.start l.length
            :: ((List.range l.length).map (fun i =>
                ProgressEvent.progress (i + 1) l.length
                  (outRec src gcu gd ee (l.getD i default)))
              ++ [ProgressEvent.complete l.length])
        ∧ ((∀ c ∈ l, c.error = none) → ∀ i, i < l.length →
            (outRec src gcu gd ee (l.getD i default)).error
              = (serverEnrichOne src gcu gd ee (l.getD i default)).2)) := by
  constructor
  · intro gd ee l
    have hperm : (crawl_with_emails gd ee l).Perm (l.map (saraminEnrichOne gd ee)) :=
      sortDesc_perm _ _
    refine ⟨?_, hperm, ?_⟩
    · rw [hperm.length_eq, List.length_map]
    · intro hnone r hr
      have hr2 : r ∈ l.map (saraminEnrichOne gd ee) := hperm.mem_iff.mp hr
      rcases List.mem_map.mp hr2 with ⟨c, hc, hval⟩
      rw [← hval, saraminEnrichOne_error]
      exact hnone c hc
  · intro src gcu gd ee l hsrc
    constructor
    · rw [generate_ok gcu gd ee l hsrc, progressEvents_eq]
      congr 2
      refine List.map_congr_left ?_
      intro i _
      congr 1
      omega
    · intro hnone i hi
      refine outRec_error src gcu gd ee _ ?_
      refine hnone _ ?_
      rw [List.getD_eq_getElem _ _ hi]
      exact List.getElem_mem hi

/-- C1 witness: the containment statement applied to 3 concrete companies
whose 2nd enrichment throws, in both pipelines. -/
theorem C1_witness :
    (∀ c ∈ ([{ company_name := "c1", homepage := some "h1" },
             { company_name := "c2", homepage := some "h2" },
             { company_name := "c3", homepage := some "h3" }] : List CompanyRec),
      c.error = none)
    ∧ supportedSource "saramin" = true
    ∧ (crawl_with_emails (fun _ => Except.ok none)
        (fun u => if u == "h2" then Except.error "boom" else Except.ok ["x@abcd.ef"])
        [{ company_name := "c1", homepage := some "h1" },
         { company_name := "c2", homepage := some "h2" },
         { company_name := "c3", homepage := some "h3" }]).length = 3
    ∧ (∀ i, i < ([{ company_name := "c1", homepage := some "h1" },
                  { company_name := "c2", homepage := some "h2" },
                  { company_name := "c3", homepage := some "h3" }] : List CompanyRec).length →
        (outRec "saramin" (fun _ => Except.ok none) (fun _ => Except.ok none)
          (fun u => if u == "h2" then Except.error "boom" else Except.ok ["x@abcd.ef"])
          (([{ company_name := "c1", homepage := some "h1" },
             { company_name := "c2", homepage := some "h2" },
             { company_name := "c3", homepage := some "h3" }] : List CompanyRec).getD i default)).error
          = (serverEnrichOne "saramin" (fun _ => Except.ok none) (fun _ => Except.ok none)
              (fun u => if u == "h2" then Except.error "boom" else Except.ok ["x@abcd.ef"])
              (([{ company_name := "c1", homepage := some "h1" },
                 { company_name := "c2", homepage := some "h2" },
                 { company_name := "c3", homepage := some "h3" }] : List CompanyRec).getD i default)).2) :=
  ⟨by decide, by decide,
   (C1_containment.1 (fun _ => Except.ok none)
     (fun u => if u == "h2" then Except.error "boom" else Except.ok ["x@abcd.ef"])
     [{ company_name := "c1", homepage := some "h1" },
      { company_name := "c2", homepage := some "h2" },
      { company_name := "c3", homepage := some "h3" }]).1,
   (C1_containment.2 "saramin" (fun _ => Except.ok none) (fun _ => Except.ok none)
     (fun u => if u == "h2" then Except.error "boom" else Except.ok ["x@abcd.ef"])
     [{ company_name := "c1", homepage := some "h1" },
      { company_name := "c2", homepage := some "h2" },
      { company_name := "c3", homepage := some "h3" }] (by decide)).2 (by decide)⟩

end Emailmak
